import Mathlib

/-!
Shallow embedding of the manifest-reconciliation subsystem of
`np_session` (`src/np_session/platform_json.py`), together with proofs
settling the frozen claims about it.

Conventions used throughout:
* Python `pathlib.Path` objects returned by a filesystem search are modelled
  as records carrying the observations the code makes of them
  (`is_file()` / `is_dir()`, `stat().st_size`, recursive directory size,
  creation timestamp, and an identity for `==` comparison of paths).
* Machine-level details (actual bytes on disk) are abstracted to the
  quantities the code compares: sizes as `Nat`, hashes as `Nat`,
  creation times as `Int` seconds.
* Fallible Python code (raising exceptions) is modelled with
  `Option`/`Except`.
-/

namespace NpSession

/-- A filesystem entry as observed by `return_single_hit` /
`get_largest_dir` (platform_json.py:1585-1630): a `pathlib.Path` together
with the results of the `stat()`/`is_file()`/`is_dir()` calls the code
makes on it.  `path` is an identity for Python `==` on paths; `size` is
`stat().st_size`; `dirSize` is `dir_size(p)` (total recursive size,
platform_json.py:1613-1617); `ctime` is `stat().st_ctime`. -/
structure Hit where
  path : Nat
  isFile : Bool
  isDir : Bool
  size : Nat
  dirSize : Nat
  ctime : Int
deriving DecidableEq, Repr

/-- Python `max(xs)` on a nonempty list of naturals (`0` on `[]`,
which the source never reaches). -/
def listMax : List Nat → Nat
  | [] => 0
  | x :: xs => xs.foldl Nat.max x

/-- `get_largest_dir` (platform_json.py:1619-1630): return the largest
directory from a list of directories, or `none` if all are the same
size.  `dirs[dir_sizes.index(max(dir_sizes))]` is modelled with
`List.get?`; the index is provably in bounds. -/
def get_largest_dir (dirs : List Hit) : Option Hit :=
  if dirs.length = 1 then dirs.head?
  else
    let dir_sizes := dirs.map (fun d => d.dirSize)
    if dir_sizes.all (fun s => s = dir_sizes.headD 0) then none
    else dirs[dir_sizes.indexOf (listMax dir_sizes)]?

/-- `return_single_hit` (platform_json.py:1585-1611): tie-break selection
over the output of `get_files[or dirs]_created_between`.  The final
implicit `return None` of the Python function (reached when the hits are
neither all files nor all directories) is the last `none`. -/
def return_single_hit (hits : List Hit) : Option Hit :=
  if hits.isEmpty then none
  else if hits.length = 1 then hits.head?
  else if 1 < hits.length ∧ hits.all (fun h => h.isFile) then
    let sizes := hits.map (fun h => h.size)
    if sizes.all (fun s => s = sizes.headD 0) then hits.head?
    else hits[sizes.indexOf (listMax sizes)]?
  else if 1 < hits.length ∧ hits.all (fun h => h.isDir) then
    match get_largest_dir hits with
    | none => hits.head?
    | some largest => some largest
  else none

lemma foldl_max_le_init (xs : List Nat) : ∀ x : Nat, x ≤ xs.foldl Nat.max x := by
  induction xs with
  | nil => intro x; exact le_refl x
  | cons y ys ih =>
    intro x
    simp only [List.foldl_cons]
    exact le_trans (Nat.le_max_left x y) (ih (Nat.max x y))

lemma le_foldl_max_of_mem {a : Nat} (xs : List Nat) :
    ∀ x : Nat, a ∈ xs → a ≤ xs.foldl Nat.max x := by
  induction xs with
  | nil => intro x h; cases h
  | cons y ys ih =>
    intro x h
    simp only [List.foldl_cons]
    rcases List.mem_cons.mp h with rfl | hm
    · exact le_trans (Nat.le_max_right x a) (foldl_max_le_init ys _)
    · exact ih _ hm

lemma foldl_max_eq_init_or_mem (xs : List Nat) :
    ∀ x : Nat, xs.foldl Nat.max x = x ∨ xs.foldl Nat.max x ∈ xs := by
  induction xs with
  | nil => intro x; exact Or.inl rfl
  | cons y ys ih =>
    intro x
    simp only [List.foldl_cons]
    rcases ih (Nat.max x y) with h | h
    · rw [h]
      rcases Nat.le_total x y with h2 | h2
      · have hxy : Nat.max x y = y := Nat.max_eq_right h2
        exact Or.inr (by rw [hxy]; exact List.mem_cons_self y ys)
      · exact Or.inl (Nat.max_eq_left h2)
    · exact Or.inr (List.mem_cons_of_mem y h)

lemma listMax_mem {xs : List Nat} (h : xs ≠ []) : listMax xs ∈ xs := by
  cases xs with
  | nil => exact absurd rfl h
  | cons x t =>
    show t.foldl Nat.max x ∈ x :: t
    rcases foldl_max_eq_init_or_mem t x with h1 | h1
    · rw [h1]; exact List.mem_cons_self x t
    · exact List.mem_cons_of_mem x h1

lemma le_listMax {xs : List Nat} {a : Nat} (h : a ∈ xs) : a ≤ listMax xs := by
  cases xs with
  | nil => cases h
  | cons x t =>
    show a ≤ t.foldl Nat.max x
    rcases List.mem_cons.mp h with rfl | hm
    · exact foldl_max_le_init t a
    · exact le_foldl_max_of_mem t x hm

/-- The `hits[sizes.index(max(sizes))]` idiom picks a member of `hits`
realizing the maximum of `f` over `hits`. -/
lemma pick_largest_spec (f : Hit → Nat) (hits : List Hit) (hne : hits ≠ []) :
    ∃ m, hits[(hits.map f).indexOf (listMax (hits.map f))]? = some m
      ∧ m ∈ hits ∧ ∀ h ∈ hits, f h ≤ f m := by
  have hmapne : hits.map f ≠ [] := by
    simpa [List.map_eq_nil_iff] using hne
  have hmem : listMax (hits.map f) ∈ hits.map f := listMax_mem hmapne
  have hidx : (hits.map f).indexOf (listMax (hits.map f)) < (hits.map f).length :=
    List.indexOf_lt_length.mpr hmem
  have hidx2 : (hits.map f).indexOf (listMax (hits.map f)) < hits.length := by
    simpa using hidx
  obtain ⟨m, hm⟩ : ∃ m, hits[(hits.map f).indexOf (listMax (hits.map f))]? = some m :=
    ⟨_, List.getElem?_eq_getElem hidx2⟩
  have hfm : f m = listMax (hits.map f) := by
    have hp : (hits.map f)[(hits.map f).indexOf (listMax (hits.map f))]? =
        some (listMax (hits.map f)) := List.getElem?_indexOf hmem
    rw [List.getElem?_map, hm] at hp
    exact Option.some.inj hp
  refine ⟨m, hm, List.getElem?_mem hm, ?_⟩
  intro h hh
  rw [hfm]
  exact le_listMax (List.mem_map_of_mem f hh)

lemma rsh_files_eq (a b : Hit) (t : List Hit)
    (hf : ∀ h ∈ a :: b :: t, h.isFile = true) :
    return_single_hit (a :: b :: t) =
      (if ((a :: b :: t).map fun h => h.size).all
            (fun s => s = ((a :: b :: t).map fun h => h.size).headD 0) then
        (a :: b :: t).head?
      else
        (a :: b :: t)[((a :: b :: t).map fun h => h.size).indexOf
          (listMax ((a :: b :: t).map fun h => h.size))]?) := by
  unfold return_single_hit
  have hc : 1 < (a :: b :: t).length ∧ ((a :: b :: t).all fun h => h.isFile) = true :=
    ⟨by simp only [List.length_cons]; omega,
     List.all_eq_true.mpr fun h hh => hf h hh⟩
  rw [if_neg (by simp), if_neg (by simp), if_pos hc]

lemma rsh_dirs_eq (a b : Hit) (t : List Hit)
    (hd : ∀ h ∈ a :: b :: t, h.isDir = true ∧ h.isFile = false) :
    return_single_hit (a :: b :: t) =
      (match get_largest_dir (a :: b :: t) with
      | none => (a :: b :: t).head?
      | some largest => some largest) := by
  unfold return_single_hit
  have hnf : ¬(1 < (a :: b :: t).length ∧ ((a :: b :: t).all fun h => h.isFile) = true) := by
    rintro ⟨-, hall⟩
    have h1 := List.all_eq_true.mp hall a (List.mem_cons_self a (b :: t))
    have h2 := (hd a (List.mem_cons_self a (b :: t))).2
    simp only [h2] at h1
    exact Bool.false_ne_true h1
  have hc : 1 < (a :: b :: t).length ∧ ((a :: b :: t).all fun h => h.isDir) = true :=
    ⟨by simp only [List.length_cons]; omega,
     List.all_eq_true.mpr fun h hh => (hd h hh).1⟩
  rw [if_neg (by simp), if_neg (by simp), if_neg hnf, if_pos hc]

/-- Head of a creation-time-sorted nonempty list has minimal ctime. -/
lemma head_ctime_min {a : Hit} {t : List Hit}
    (hs : (a :: t).Pairwise fun u v => u.ctime ≤ v.ctime) :
    ∀ h ∈ a :: t, a.ctime ≤ h.ctime := by
  intro h hh
  rcases List.mem_cons.mp hh with rfl | hm
  · exact le_refl _
  · exact (List.pairwise_cons.mp hs).1 h hm

/-- C1: `return_single_hit` tie-break policy (platform_json.py:1585-1611,
get_largest_dir 1619-1630): empty list → `None`; singleton → that
element; two or more files → the largest by `st_size`, or, when all
sizes are equal, the earliest-created one (the head of the
creation-time-sorted input); two or more directories → the largest by
total recursive size, or, when all sizes are equal, the
earliest-created one. -/
theorem return_single_hit_tie_break :
    return_single_hit [] = none
    ∧ (∀ x : Hit, return_single_hit [x] = some x)
    ∧ (∀ hits : List Hit, 2 ≤ hits.length →
        (∀ h ∈ hits, h.isFile = true) →
        hits.Pairwise (fun u v => u.ctime ≤ v.ctime) →
        ((∀ h ∈ hits, ∀ g ∈ hits, h.size = g.size) →
          ∃ m, return_single_hit hits = some m ∧ m ∈ hits
            ∧ ∀ h ∈ hits, m.ctime ≤ h.ctime)
        ∧ (¬ (∀ h ∈ hits, ∀ g ∈ hits, h.size = g.size) →
          ∃ m, return_single_hit hits = some m ∧ m ∈ hits
            ∧ ∀ h ∈ hits, h.size ≤ m.size))
    ∧ (∀ hits : List Hit, 2 ≤ hits.length →
        (∀ h ∈ hits, h.isDir = true ∧ h.isFile = false) →
        hits.Pairwise (fun u v => u.ctime ≤ v.ctime) →
        ((∀ h ∈ hits, ∀ g ∈ hits, h.dirSize = g.dirSize) →
          ∃ m, return_single_hit hits = some m ∧ m ∈ hits
            ∧ ∀ h ∈ hits, m.ctime ≤ h.ctime)
        ∧ (¬ (∀ h ∈ hits, ∀ g ∈ hits, h.dirSize = g.dirSize) →
          ∃ m, return_single_hit hits = some m ∧ m ∈ hits
            ∧ ∀ h ∈ hits, h.dirSize ≤ m.dirSize)) := by
  refine ⟨rfl, fun x => rfl, ?_, ?_⟩
  · -- files
    intro hits h2 hf hsort
    rcases hits with _ | ⟨a, hits1⟩
    · simp at h2
    rcases hits1 with _ | ⟨b, t⟩
    · simp only [List.length_cons, List.length_nil] at h2; omega
    rw [rsh_files_eq a b t hf]
    constructor
    · intro heq
      have hall : (((a :: b :: t).map fun h => h.size).all
          fun s => s = ((a :: b :: t).map fun h => h.size).headD 0) = true := by
        refine List.all_eq_true.mpr fun s hs => ?_
        obtain ⟨h, hh, rfl⟩ := List.mem_map.mp hs
        simp only [List.map_cons, List.headD_cons, decide_eq_true_eq]
        exact heq h hh a (List.mem_cons_self _ _)
      rw [if_pos hall]
      exact ⟨a, rfl, List.mem_cons_self _ _, head_ctime_min hsort⟩
    · intro hneq
      have hnall : ¬((((a :: b :: t).map fun h => h.size).all
          fun s => s = ((a :: b :: t).map fun h => h.size).headD 0) = true) := by
        intro hall
        refine hneq fun h hh g hg => ?_
        have hha := List.all_eq_true.mp hall h.size (List.mem_map_of_mem _ hh)
        have hga := List.all_eq_true.mp hall g.size (List.mem_map_of_mem _ hg)
        simp only [List.map_cons, List.headD_cons, decide_eq_true_eq] at hha hga
        rw [hha, hga]
      rw [if_neg hnall]
      exact pick_largest_spec (fun h => h.size) (a :: b :: t) (by simp)
  · -- directories
    intro hits h2 hd hsort
    rcases hits with _ | ⟨a, hits1⟩
    · simp at h2
    rcases hits1 with _ | ⟨b, t⟩
    · simp only [List.length_cons, List.length_nil] at h2; omega
    rw [rsh_dirs_eq a b t hd]
    constructor
    · intro heq
      have hnone : get_largest_dir (a :: b :: t) = none := by
        unfold get_largest_dir
        have hall : (((a :: b :: t).map fun d => d.dirSize).all
            fun s => s = ((a :: b :: t).map fun d => d.dirSize).headD 0) = true := by
          refine List.all_eq_true.mpr fun s hs => ?_
          obtain ⟨h, hh, rfl⟩ := List.mem_map.mp hs
          simp only [List.map_cons, List.headD_cons, decide_eq_true_eq]
          exact heq h hh a (List.mem_cons_self _ _)
        rw [if_neg (by simp only [List.length_cons]; omega), if_pos hall]
      rw [hnone]
      exact ⟨a, rfl, List.mem_cons_self _ _, head_ctime_min hsort⟩
    · intro hneq
      obtain ⟨m, hm, hmem, hle⟩ :=
        pick_largest_spec (fun h => h.dirSize) (a :: b :: t) (by simp)
      have hsome : get_largest_dir (a :: b :: t) = some m := by
        unfold get_largest_dir
        have hnall : ¬((((a :: b :: t).map fun d => d.dirSize).all
            fun s => s = ((a :: b :: t).map fun d => d.dirSize).headD 0) = true) := by
          intro hall
          refine hneq fun h hh g hg => ?_
          have hha := List.all_eq_true.mp hall h.dirSize (List.mem_map_of_mem _ hh)
          have hga := List.all_eq_true.mp hall g.dirSize (List.mem_map_of_mem _ hg)
          simp only [List.map_cons, List.headD_cons, decide_eq_true_eq] at hha hga
          rw [hha, hga]
        rw [if_neg (by simp only [List.length_cons]; omega), if_neg hnall]
        exact hm
      rw [hsome]
      exact ⟨m, rfl, hmem, hle⟩

/-- Witness for C1: concrete two-file input with sizes 5 < 7 selects the
7-byte file; and a concrete equal-size pair selects the earliest-created. -/
theorem return_single_hit_tie_break_witness :
    (∃ m, return_single_hit
        [Hit.mk 0 true false 5 0 0, Hit.mk 1 true false 7 0 1] = some m
      ∧ m ∈ [Hit.mk 0 true false 5 0 0, Hit.mk 1 true false 7 0 1]
      ∧ ∀ h ∈ [Hit.mk 0 true false 5 0 0, Hit.mk 1 true false 7 0 1],
          h.size ≤ m.size)
    ∧ (∃ m, return_single_hit
        [Hit.mk 0 false true 0 4 0, Hit.mk 1 false true 0 4 1] = some m
      ∧ m ∈ [Hit.mk 0 false true 0 4 0, Hit.mk 1 false true 0 4 1]
      ∧ ∀ h ∈ [Hit.mk 0 false true 0 4 0, Hit.mk 1 false true 0 4 1],
          m.ctime ≤ h.ctime) :=
  ⟨(return_single_hit_tie_break.2.2.1
      [Hit.mk 0 true false 5 0 0, Hit.mk 1 true false 7 0 1]
      (by decide) (by decide) (by decide)).2 (by decide),
   (return_single_hit_tie_break.2.2.2
      [Hit.mk 0 false true 0 4 0, Hit.mk 1 false true 0 4 1]
      (by decide) (by decide) (by decide)).1 (by decide)⟩

/-- C10: on a candidate list of length two or more containing both a
file and a directory, `return_single_hit` falls through every guarded
branch and returns the implicit `None` (platform_json.py:1585-1611). -/
theorem return_single_hit_mixed_none :
    ∀ hits : List Hit, 2 ≤ hits.length →
    (∀ h ∈ hits, ¬(h.isFile = true ∧ h.isDir = true)) →
    (∃ h ∈ hits, h.isFile = true) →
    (∃ h ∈ hits, h.isDir = true) →
    return_single_hit hits = none := by
  intro hits h2 hnboth hex1 hex2
  obtain ⟨f, hfmem, hffile⟩ := hex1
  obtain ⟨d, hdmem, hddir⟩ := hex2
  rcases hits with _ | ⟨a, hits1⟩
  · simp at h2
  rcases hits1 with _ | ⟨b, t⟩
  · simp only [List.length_cons, List.length_nil] at h2; omega
  unfold return_single_hit
  have hnf : ¬(1 < (a :: b :: t).length ∧
      ((a :: b :: t).all fun h => h.isFile) = true) := by
    rintro ⟨-, hall⟩
    have hdfile := List.all_eq_true.mp hall d hdmem
    exact hnboth d hdmem ⟨hdfile, hddir⟩
  have hnd : ¬(1 < (a :: b :: t).length ∧
      ((a :: b :: t).all fun h => h.isDir) = true) := by
    rintro ⟨-, hall⟩
    have hfdir := List.all_eq_true.mp hall f hfmem
    exact hnboth f hfmem ⟨hffile, hfdir⟩
  rw [if_neg (by simp), if_neg (by simp), if_neg hnf, if_neg hnd]

/-- Witness for C10: a concrete mixed file/directory pair yields `none`. -/
theorem return_single_hit_mixed_none_witness :
    return_single_hit [Hit.mk 0 true false 5 0 0, Hit.mk 1 false true 0 9 1] = none :=
  return_single_hit_mixed_none
    [Hit.mk 0 true false 5 0 0, Hit.mk 1 false true 0 9 1]
    (by decide) (by decide) ⟨Hit.mk 0 true false 5 0 0, by decide, by decide⟩
    ⟨Hit.mk 1 false true 0 9 1, by decide, by decide⟩

/-! ## Time-windowed search (C6)

`get_files_created_between` / `get_dirs_created_between`
(platform_json.py:1564-1583).  A filesystem root is modelled as the list
of entries below it: `topLevel` marks entries directly inside the root
(the ones a non-recursive `glob` visits; `rglob` visits every depth),
`globMatch` is whether the entry's name matches the `strsearch` pattern,
`ctime` is `stat().st_ctime`.  Python `sorted(..., key=...)` is a stable
sort, modelled by stable insertion sort. -/

structure FsNode where
  path : Nat
  topLevel : Bool
  globMatch : Bool
  isDir : Bool
  ctime : Int
deriving DecidableEq, Repr

/-- Stable insertion step for sorting by creation time. -/
def insertByCtime (x : FsNode) : List FsNode → List FsNode
  | [] => [x]
  | y :: ys => if x.ctime ≤ y.ctime then x :: y :: ys else y :: insertByCtime x ys

/-- `sorted(hits, key=get_created_timestamp_from_file)`: stable sort by
creation time. -/
def sortByCtime : List FsNode → List FsNode
  | [] => []
  | x :: xs => insertByCtime x (sortByCtime xs)

/-- `get_dirs_created_between` (platform_json.py:1564-1573): non-recursive
`glob`, keep directories whose creation time lies in `[start, end]`
(both bounds inclusive), sorted ascending by creation time. -/
def get_dirs_created_between (dir : List FsNode) (start end_ : Int) : List FsNode :=
  let glob_matches := dir.filter fun m => m.topLevel && m.globMatch
  let hits := glob_matches.filter fun m =>
    m.isDir && (decide (start ≤ m.ctime) && decide (m.ctime ≤ end_))
  sortByCtime hits

/-- `get_files_created_between` (platform_json.py:1575-1583): recursive
`rglob`, keep entries whose creation time lies in `[start, end]` (both
bounds inclusive), sorted ascending by creation time. -/
def get_files_created_between (dir : List FsNode) (start end_ : Int) : List FsNode :=
  let glob_matches := dir.filter fun m => m.globMatch
  let hits := glob_matches.filter fun m =>
    decide (start ≤ m.ctime) && decide (m.ctime ≤ end_)
  sortByCtime hits

lemma insertByCtime_perm (x : FsNode) (l : List FsNode) :
    (insertByCtime x l).Perm (x :: l) := by
  induction l with
  | nil => exact List.Perm.refl _
  | cons y ys ih =>
    by_cases h : x.ctime ≤ y.ctime
    · simp only [insertByCtime, if_pos h]
      exact List.Perm.refl _
    · simp only [insertByCtime, if_neg h]
      exact (ih.cons y).trans (List.Perm.swap x y ys)

lemma sortByCtime_perm (l : List FsNode) : (sortByCtime l).Perm l := by
  induction l with
  | nil => exact List.Perm.refl _
  | cons x xs ih =>
    exact (insertByCtime_perm x (sortByCtime xs)).trans (ih.cons x)

lemma insertByCtime_sorted (x : FsNode) {l : List FsNode}
    (h : l.Pairwise fun u v => u.ctime ≤ v.ctime) :
    (insertByCtime x l).Pairwise fun u v => u.ctime ≤ v.ctime := by
  induction l with
  | nil => simp [insertByCtime]
  | cons y ys ih =>
    rcases List.pairwise_cons.mp h with ⟨hy, hys⟩
    by_cases hle : x.ctime ≤ y.ctime
    · simp only [insertByCtime, if_pos hle]
      refine List.pairwise_cons.mpr ⟨?_, h⟩
      intro z hz
      rcases List.mem_cons.mp hz with rfl | hm
      · exact hle
      · exact le_trans hle (hy z hm)
    · simp only [insertByCtime, if_neg hle]
      refine List.pairwise_cons.mpr ⟨?_, ih hys⟩
      intro z hz
      have hz2 := (insertByCtime_perm x ys).mem_iff.mp hz
      rcases List.mem_cons.mp hz2 with rfl | hm
      · exact le_of_not_le hle
      · exact hy z hm

lemma sortByCtime_sorted (l : List FsNode) :
    (sortByCtime l).Pairwise fun u v => u.ctime ≤ v.ctime := by
  induction l with
  | nil => simp [sortByCtime]
  | cons x xs ih => exact insertByCtime_sorted x ih

/-- C6: the time-window search returns exactly the entries under the
root that match the glob and whose creation time `t` satisfies
`start ≤ t ≤ end` (both bounds inclusive); file search is recursive,
directory search is non-recursive (top level only, directories only);
results are sorted ascending by creation time. -/
theorem created_between_window_spec :
    ∀ (dir : List FsNode) (start end_ : Int),
    ((get_files_created_between dir start end_).Perm
        ((dir.filter fun m => m.globMatch).filter fun m =>
          decide (start ≤ m.ctime) && decide (m.ctime ≤ end_))
      ∧ ((get_files_created_between dir start end_).Pairwise fun u v =>
          u.ctime ≤ v.ctime)
      ∧ ∀ m : FsNode, m ∈ get_files_created_between dir start end_ ↔
          m ∈ dir ∧ m.globMatch = true ∧ start ≤ m.ctime ∧ m.ctime ≤ end_)
    ∧ ((get_dirs_created_between dir start end_).Perm
        ((dir.filter fun m => m.topLevel && m.globMatch).filter fun m =>
          m.isDir && (decide (start ≤ m.ctime) && decide (m.ctime ≤ end_)))
      ∧ ((get_dirs_created_between dir start end_).Pairwise fun u v =>
          u.ctime ≤ v.ctime)
      ∧ ∀ m : FsNode, m ∈ get_dirs_created_between dir start end_ ↔
          m ∈ dir ∧ m.topLevel = true ∧ m.globMatch = true ∧ m.isDir = true
            ∧ start ≤ m.ctime ∧ m.ctime ≤ end_) := by
  intro dir start end_
  refine ⟨⟨sortByCtime_perm _, sortByCtime_sorted _, ?_⟩,
          ⟨sortByCtime_perm _, sortByCtime_sorted _, ?_⟩⟩
  · intro m
    unfold get_files_created_between
    rw [(sortByCtime_perm _).mem_iff]
    simp only [List.mem_filter, decide_eq_true_eq, Bool.and_eq_true]
    tauto
  · intro m
    unfold get_dirs_created_between
    rw [(sortByCtime_perm _).mem_iff]
    simp only [List.mem_filter, decide_eq_true_eq, Bool.and_eq_true]
    tauto

/-! ## Entry.correct_data (C5)

`Entry.correct_data` (platform_json.py:450-453) is
`self.expected_data.exists()`; `EphysRaw.correct_data`
(platform_json.py:690-696) overrides it: it returns `True` outright when
the platform json being examined lives on the z drive
(`platform_json_on_z_drive`, lines 676-682) and `self.origin` found a
candidate, and only otherwise falls back to the base implementation. -/

/-- One concrete `Entry` subclass (their order mirrors
`Entry.__subclasses__()`); `base` stands for the base class itself. -/
inductive EntryKind where
  | base | ephysSorted | ephysRaw | sync | camstim | videoTracking
  | videoInfo | surfaceImage | newscaleLog | notebook | surgery
deriving DecidableEq, Repr

/-- The filesystem observations `correct_data` consults:
`expectedExists` is `self.expected_data.exists()`; `platformJsonOnZ` is
`EphysRaw.platform_json_on_z_drive` (whether the platform json's parent
folder is on a z drive / neuropixels_data share); `originIsSome` is the
truthiness of `self.origin` (a `Path` or `None`). -/
structure EntryFsView where
  expectedExists : Bool
  platformJsonOnZ : Bool
  originIsSome : Bool
deriving DecidableEq, Repr

/-- `correct_data` per entry kind: every kind uses the base
implementation except `EphysRaw`, which first short-circuits on
z-drive + origin (platform_json.py:690-696). -/
def correct_data (k : EntryKind) (v : EntryFsView) : Bool :=
  match k with
  | .ephysRaw => if v.platformJsonOnZ && v.originIsSome then true else v.expectedExists
  | _ => v.expectedExists

/-- Counterexample to C5: an `EphysRaw` entry examined from a z-drive
platform json with an origin found reports `correct_data = True` even
though its expected path does not exist. -/
theorem correct_data_iff_exists_counterexample :
    correct_data EntryKind.ephysRaw (EntryFsView.mk false true true) = true
    ∧ (EntryFsView.mk false true true).expectedExists = false := by
  constructor <;> rfl

/-- C5 (amended): for every entry kind other than `EphysRaw`,
`correct_data` is `True` iff the expected session-folder path exists;
for `EphysRaw`, `correct_data` is `True` iff the expected path exists
or the platform json is on the z drive and an origin was found. -/
theorem correct_data_iff_exists_amended :
    (∀ (k : EntryKind) (v : EntryFsView), k ≠ EntryKind.ephysRaw →
      (correct_data k v = true ↔ v.expectedExists = true))
    ∧ (∀ v : EntryFsView, correct_data EntryKind.ephysRaw v = true ↔
        ((v.platformJsonOnZ = true ∧ v.originIsSome = true) ∨ v.expectedExists = true)) := by
  constructor
  · intro k v hk
    cases k <;> first
      | exact absurd rfl hk
      | exact Iff.rfl
  · intro v
    obtain ⟨e, z, o⟩ := v
    cases e <;> cases z <;> cases o <;> simp [correct_data]

/-- Witness for C5 (amended): a `Sync` entry with its expected file
present has `correct_data = True`. -/
theorem correct_data_iff_exists_amended_witness :
    correct_data EntryKind.sync (EntryFsView.mk true false false) = true :=
  (correct_data_iff_exists_amended.1 EntryKind.sync
    (EntryFsView.mk true false false) (by decide)).mpr rfl

/-! ## Experiment window endpoints (C4)

`PlatformJson.exp_start` (platform_json.py:139-152) and
`PlatformJson.exp_end` (platform_json.py:154-166).  Manifest contents
are modelled as an association list of the string-valued timestamp
fields; `contents.get(field, '')` is `pj_get`.  `datetime.strptime(s,
WSE_DATETIME_FORMAT)` with format `%Y%m%d%H%M%S` is `strptime_wse`
(fourteen digits, calendar-validated). -/

structure PyDateTime where
  year : Nat
  month : Nat
  day : Nat
  hour : Nat
  minute : Nat
  second : Nat
deriving DecidableEq, Repr

def isLeapYear (y : Nat) : Bool :=
  (y % 4 = 0 && !(y % 100 = 0)) || y % 400 = 0

def daysInMonth (y m : Nat) : Nat :=
  if m = 2 then (if isLeapYear y then 29 else 28)
  else if m = 4 ∨ m = 6 ∨ m = 9 ∨ m = 11 then 30
  else 31

/-- `datetime.strptime(s, '%Y%m%d%H%M%S')`: fourteen digits split as
YYYY MM DD HH MM SS, failing (ValueError) on anything malformed or not
a valid calendar datetime. -/
def strptime_wse (s : String) : Option PyDateTime :=
  let cs := s.toList
  if cs.length = 14 && cs.all Char.isDigit then
    let d := fun i => (cs.getD i '0').toNat - 48
    let year := d 0 * 1000 + d 1 * 100 + d 2 * 10 + d 3
    let month := d 4 * 10 + d 5
    let day := d 6 * 10 + d 7
    let hour := d 8 * 10 + d 9
    let minute := d 10 * 10 + d 11
    let second := d 12 * 10 + d 13
    if 1 ≤ year && (1 ≤ month && month ≤ 12)
        && (1 ≤ day && day ≤ daysInMonth year month)
        && hour ≤ 23 && minute ≤ 59 && second ≤ 59 then
      some (PyDateTime.mk year month day hour minute second)
    else none
  else none

/-- `self.contents.get(field, '')` for the string-valued timestamp
fields. -/
def pj_get (contents : List (String × String)) (k : String) : String :=
  (((contents.find? fun kv => kv.1 == k).map fun kv => kv.2).getD "")

inductive PJError where
  | incompleteInfo
  | valueError
deriving DecidableEq, Repr

/-- Fields tried in order by `exp_start` (platform_json.py:142). -/
def exp_start_fields : List String :=
  ["workflow_start_time", "CartridgeLowerTime", "ExperimentStartTime",
   "ProbeInsertionStartTime"]

/-- Fields tried in order by `exp_end` (platform_json.py:160). -/
def exp_end_fields : List String :=
  ["platform_json_save_time", "workflow_complete_time", "ExperimentCompleteTime"]

/-- The `while fields_to_try` / `pop(0)` / `break`-on-non-empty loops of
`exp_start` and `exp_end`: value of the first field whose contents entry
is non-empty, `none` when the list is exhausted. -/
def firstNonEmpty (contents : List (String × String)) : List String → Option String
  | [] => none
  | f :: fs =>
    let v := pj_get contents f
    if v = "" then firstNonEmpty contents fs else some v

/-- `PlatformJson.exp_start` (platform_json.py:139-152).  `path_ctime`
is `datetime.fromtimestamp(self.path.stat().st_ctime)`, the platform
json file's own creation time, used when every field is missing or
empty. -/
def exp_start (contents : List (String × String)) (path_ctime : PyDateTime) :
    Except PJError PyDateTime :=
  match firstNonEmpty contents exp_start_fields with
  | none => Except.ok path_ctime
  | some s =>
    match strptime_wse s with
    | some dt => Except.ok dt
    | none => Except.error PJError.valueError

/-- `PlatformJson.exp_end` (platform_json.py:154-166): raises
`IncompleteInfoFromPlatformJson` when every field is missing or
empty. -/
def exp_end (contents : List (String × String)) : Except PJError PyDateTime :=
  match firstNonEmpty contents exp_end_fields with
  | none => Except.error PJError.incompleteInfo
  | some s =>
    match strptime_wse s with
    | some dt => Except.ok dt
    | none => Except.error PJError.valueError

lemma firstNonEmpty_eq_none {contents : List (String × String)}
    {fs : List String} (h : ∀ f ∈ fs, pj_get contents f = "") :
    firstNonEmpty contents fs = none := by
  induction fs with
  | nil => rfl
  | cons f fs ih =>
    have hf := h f (List.mem_cons_self f fs)
    simp only [firstNonEmpty, hf, if_pos]
    exact ih fun g hg => h g (List.mem_cons_of_mem f hg)

/-- Counterexample to C4: on a manifest with none of the recorded
timestamp fields, `exp_end` raises `IncompleteInfoFromPlatformJson`
rather than producing the end of the session's calendar day, so the
experiment window is not produced without error. -/
theorem exp_window_counterexample :
    exp_end [] = Except.error PJError.incompleteInfo := rfl

/-- C4 (amended): when none of the recorded timestamp fields is present
(or all are empty), `exp_start` falls back to the platform json file's
own creation time — not the start of the session's calendar day — and
`exp_end` raises `IncompleteInfoFromPlatformJson` instead of producing
an endpoint. -/
theorem exp_window_fallback :
    (∀ (contents : List (String × String)) (ct : PyDateTime),
      (∀ f ∈ exp_start_fields, pj_get contents f = "") →
      exp_start contents ct = Except.ok ct)
    ∧ (∀ contents : List (String × String),
      (∀ f ∈ exp_end_fields, pj_get contents f = "") →
      exp_end contents = Except.error PJError.incompleteInfo) := by
  constructor
  · intro contents ct h
    unfold exp_start
    rw [firstNonEmpty_eq_none h]
  · intro contents h
    unfold exp_end
    rw [firstNonEmpty_eq_none h]

/-- Witness for C4 (amended): a manifest holding only a rig id has
`exp_start` equal to the json file's creation time and `exp_end`
erroring out. -/
theorem exp_window_fallback_witness :
    exp_start [("rig_id", "NP.1")] (PyDateTime.mk 2023 1 1 0 0 0) =
      Except.ok (PyDateTime.mk 2023 1 1 0 0 0)
    ∧ exp_end [("rig_id", "NP.1")] = Except.error PJError.incompleteInfo :=
  ⟨exp_window_fallback.1 [("rig_id", "NP.1")] (PyDateTime.mk 2023 1 1 0 0 0)
      (by decide),
   exp_window_fallback.2 [("rig_id", "NP.1")] (by decide)⟩

/-! ## Manifest read-modify-write with backup (C3, C7)

`PlatformJson.update` (platform_json.py:120-133) and `Files.write`
(platform_json.py:1283-1304).  The on-disk pair (manifest json, sibling
`.bak`) is a `ManifestState`; top-level json values are `PVal`;
`contents` is the parsed json file (an insertion-ordered association
list, as Python dicts are), `bak = none` when no `.bak` file exists. -/

/-- A top-level JSON value of the platform json. -/
inductive PVal where
  | str (s : String)
  | dict (fields : List (String × PVal))
  | num (n : Int)
  | arr (xs : List PVal)
  | null

/-- Python `d[k] = v` on an insertion-ordered dict: overwrite in place
when the key is present (keys are unique in a Python dict, so replacing
the first occurrence is assignment), append otherwise. -/
def dictSet : List (String × PVal) → String → PVal → List (String × PVal)
  | [], k, v => [(k, v)]
  | kv :: rest, k, v =>
    if kv.1 == k then (kv.1, v) :: rest else kv :: dictSet rest k v

/-- Python `d.get(k)` / `d[k]` lookup. -/
def dictGet (l : List (String × PVal)) (k : String) : Option PVal :=
  (l.find? fun kv => kv.1 == k).map fun kv => kv.2

/-- The manifest file and its sibling backup. -/
structure ManifestState where
  contents : List (String × PVal)
  bak : Option (List (String × PVal))

/-- `shutil.copy2(self.path, self.backup) if not self.backup.exists()
else None` (platform_json.py:123 and 1286): copy the manifest to the
`.bak` sibling only when no backup exists yet. -/
def ensure_backup (st : ManifestState) : ManifestState :=
  match st.bak with
  | none => ManifestState.mk st.contents (some st.contents)
  | some b => ManifestState.mk st.contents (some b)

/-- `PlatformJson.update(**kwargs)` (platform_json.py:120-133): back up
once, re-read contents, apply `contents.update({k: v})` for each kwarg,
rewrite the json. -/
def PlatformJson.update (kwargs : List (String × PVal)) (st : ManifestState) :
    ManifestState :=
  let st1 := ensure_backup st
  let contents := st1.contents
  let contents2 := kwargs.foldl (fun c kv => dictSet c kv.1 kv.2) contents
  ManifestState.mk contents2 st1.bak

/-- The instance state `Files.write` reads besides the manifest file:
its `files` argument, whether every path named in it exists in the
session folder, `self.dict_corrected`, `self.dict_folder`,
`self.experiment` and `self.foraging_id` (`none` for a falsy foraging
id). -/
structure WriteArgs where
  files : Option (List (String × PVal))
  files_all_exist : Bool
  dict_corrected : List (String × PVal)
  dict_folder : List (String × PVal)
  experiment : PVal
  foraging_id : Option PVal

/-- The tail of `Files.write` shared by its non-raising branches:
`contents['files'] = fv`, `contents['project'] = self.experiment`, and
`contents['foraging_id'] = self.foraging_id` when the latter is
truthy. -/
def write_tail (contents : List (String × PVal)) (fv : List (String × PVal))
    (a : WriteArgs) : List (String × PVal) :=
  let c1 := dictSet contents "files" (PVal.dict fv)
  let c2 := dictSet c1 "project" a.experiment
  match a.foraging_id with
  | some f => dictSet c2 "foraging_id" f
  | none => c2

/-- `Files.write(files=None)` (platform_json.py:1283-1304).  Returns the
resulting disk state and whether the method completed (`false` = the
`FileNotFoundError` raise, which happens after the backup step but
before any rewrite).  An empty `files` dict is falsy in Python, so it
selects the `else` branch just like `files=None`. -/
def Files.write (a : WriteArgs) (st : ManifestState) : ManifestState × Bool :=
  let st1 := ensure_backup st
  let contents := st1.contents
  let filesTruthy := match a.files with
    | some fs => !fs.isEmpty
    | none => false
  if filesTruthy && a.files_all_exist then
    (ManifestState.mk (write_tail contents (a.files.getD []) a) st1.bak, true)
  else if filesTruthy then
    (st1, false)
  else
    let fdict := if a.dict_corrected.isEmpty then a.dict_folder else a.dict_corrected
    (ManifestState.mk (write_tail contents fdict a) st1.bak, true)

/-- One invocation of the write path: either `PlatformJson.update` or
`Files.write`. -/
inductive WriteStep where
  | update (kwargs : List (String × PVal))
  | write (a : WriteArgs)

def applyStep : WriteStep → ManifestState → ManifestState
  | .update kw, st => PlatformJson.update kw st
  | .write a, st => (Files.write a st).1

lemma ensure_backup_bak : ∀ st : ManifestState,
    (ensure_backup st).bak = some (st.bak.getD st.contents) := by
  rintro ⟨c, b⟩
  cases b <;> rfl

lemma ensure_backup_contents : ∀ st : ManifestState,
    (ensure_backup st).contents = st.contents := by
  rintro ⟨c, b⟩
  cases b <;> rfl

lemma write_bak (a : WriteArgs) (st : ManifestState) :
    (Files.write a st).1.bak = (ensure_backup st).bak := by
  simp only [Files.write]
  split
  · rfl
  split
  · rfl
  · rfl

lemma applyStep_bak (s : WriteStep) (st : ManifestState) :
    (applyStep s st).bak = some (st.bak.getD st.contents) := by
  cases s with
  | update kw =>
    show (ensure_backup st).bak = _
    exact ensure_backup_bak st
  | write a =>
    show (Files.write a st).1.bak = _
    rw [write_bak]
    exact ensure_backup_bak st

/-- C3: backup-once.  Invoking the write path (`Files.write` or
`PlatformJson.update`, in any combination) twice in succession starting
with no `.bak` present leaves exactly one `.bak`, whose contents are the
manifest's state before the first write (already after the first write);
and a `.bak` that already exists is never overwritten by any later
write. -/
theorem backup_once :
    (∀ (st : ManifestState) (s1 s2 : WriteStep), st.bak = none →
      (applyStep s1 st).bak = some st.contents
      ∧ (applyStep s2 (applyStep s1 st)).bak = some st.contents)
    ∧ (∀ (st : ManifestState) (b : List (String × PVal)) (s : WriteStep),
      st.bak = some b → (applyStep s st).bak = some b) := by
  constructor
  · intro st s1 s2 hb
    have h1 : (applyStep s1 st).bak = some st.contents := by
      rw [applyStep_bak, hb]
      rfl
    refine ⟨h1, ?_⟩
    rw [applyStep_bak, h1]
    rfl
  · intro st b s hb
    rw [applyStep_bak, hb]
    rfl

/-- Witness for C3: a concrete manifest with no backup, written twice
(an `update` then a `write`), ends with its original contents in the
backup slot; and a pre-existing backup survives a write. -/
theorem backup_once_witness :
    (applyStep (WriteStep.write (WriteArgs.mk none true [] [] (PVal.str "P") none))
      (applyStep (WriteStep.update [("project", PVal.str "P")])
        (ManifestState.mk [("operator", PVal.str "jane")] none))).bak =
      some [("operator", PVal.str "jane")]
    ∧ (applyStep (WriteStep.update [("project", PVal.str "P")])
        (ManifestState.mk [] (some [("operator", PVal.str "old")]))).bak =
      some [("operator", PVal.str "old")] :=
  ⟨(backup_once.1 (ManifestState.mk [("operator", PVal.str "jane")] none)
      (WriteStep.update [("project", PVal.str "P")])
      (WriteStep.write (WriteArgs.mk none true [] [] (PVal.str "P") none)) rfl).2,
   backup_once.2 (ManifestState.mk [] (some [("operator", PVal.str "old")]))
      [("operator", PVal.str "old")]
      (WriteStep.update [("project", PVal.str "P")]) rfl⟩

lemma find?_dictSet_ne {l : List (String × PVal)} {k0 k : String}
    (v : PVal) (h : k ≠ k0) :
    ((dictSet l k0 v).find? fun kv => kv.1 == k) =
      (l.find? fun kv => kv.1 == k) := by
  induction l with
  | nil =>
    simp only [dictSet, List.find?]
    have : (k0 == k) = false := by
      simpa using fun he => h (Eq.symm he)
    simp [this]
  | cons a l ih =>
    by_cases ha : a.1 = k0
    · have hbeq : (a.1 == k0) = true := by simpa using ha
      have hak : (a.1 == k) = false := by
        simpa using fun he => h (ha ▸ Eq.symm he)
      simp only [dictSet, hbeq, if_true]
      simp [List.find?, hak]
    · have hbeq : (a.1 == k0) = false := by simpa using ha
      simp only [dictSet, hbeq, Bool.false_eq_true, if_false]
      cases hak : (a.1 == k) <;> simp [List.find?, hak, ih]

lemma dictGet_dictSet_ne {l : List (String × PVal)} {k0 k : String}
    (v : PVal) (h : k ≠ k0) :
    dictGet (dictSet l k0 v) k = dictGet l k := by
  unfold dictGet
  rw [find?_dictSet_ne v h]

/-- C7: frame condition of `Files.write` (platform_json.py:1283-1304):
every top-level key other than `files`, `project` and `foraging_id`
keeps its value, in both the completing and the raising branch. -/
theorem write_preserves_unrelated_keys :
    ∀ (a : WriteArgs) (st : ManifestState) (k : String),
      k ≠ "files" → k ≠ "project" → k ≠ "foraging_id" →
      dictGet (Files.write a st).1.contents k = dictGet st.contents k := by
  intro a st k hf hp hfo
  have htail : ∀ fv, dictGet (write_tail st.contents fv a) k = dictGet st.contents k := by
    intro fv
    unfold write_tail
    cases a.foraging_id with
    | none =>
      rw [dictGet_dictSet_ne _ hp, dictGet_dictSet_ne _ hf]
    | some f =>
      rw [dictGet_dictSet_ne _ hfo, dictGet_dictSet_ne _ hp,
        dictGet_dictSet_ne _ hf]
  simp only [Files.write, ensure_backup_contents]
  split
  · exact htail _
  split
  · exact congrArg (fun c => dictGet c k) (ensure_backup_contents st)
  · exact htail _

/-- Witness for C7: writing a concrete manifest leaves the `operator`
key untouched. -/
theorem write_preserves_unrelated_keys_witness :
    dictGet (Files.write
        (WriteArgs.mk none true [("sync", PVal.str "s.h5")] [] (PVal.str "P") none)
        (ManifestState.mk
          [("operator", PVal.str "jane"), ("files", PVal.dict [])] none)).1.contents
      "operator" =
    dictGet [("operator", PVal.str "jane"), ("files", PVal.dict [])] "operator" :=
  write_preserves_unrelated_keys
    (WriteArgs.mk none true [("sync", PVal.str "s.h5")] [] (PVal.str "P") none)
    (ManifestState.mk [("operator", PVal.str "jane"), ("files", PVal.dict [])] none)
    "operator" (by decide) (by decide) (by decide)

/-! ## fix_dict and extra manifest entries (C9)

`Files.fix_dict` (platform_json.py:1262-1281) together with
`Files.dict_extra` (platform_json.py:1138-1140), `Files.entry_from_dict`
(platform_json.py:1157-1162) and the parts of `Entry.__init__`
(platform_json.py:390-412) they exercise.  A manifest `files` dict is an
association list `descriptive_name → [(dir_or_file_type,
dir_or_file_name)]`; `actualExists name` is
`(self.platform_json.path.parent / name).exists()`. -/

def EphysSorted.lims_upload_labels : List String :=
  ["A", "B", "C", "D", "E", "F"].map fun c => "ephys_raw_data_probe_" ++ c ++ "_sorted"

def EphysRaw.lims_upload_labels : List String :=
  ["A", "B", "C", "D", "E", "F"].map fun c => "ephys_raw_data_probe_" ++ c

def Sync.lims_upload_labels : List String := ["synchronization_data"]

def Camstim.lims_upload_labels : List String :=
  ["behavior", "optogenetic", "visual", "replay"].map fun pkl => pkl ++ "_stimulus"

def VideoTracking.lims_upload_labels : List String :=
  ["behavior", "eye", "face"].map fun cam => cam ++ "_tracking"

def VideoInfo.lims_upload_labels : List String :=
  ["beh", "eye", "face"].map fun cam => cam ++ "_cam_json"

def SurfaceImage.lims_upload_labels : List String :=
  (["pre_experiment", "brain", "pre_insertion", "post_insertion",
    "post_stimulus", "post_experiment"].map fun img =>
    ["left", "right"].map fun side => img ++ "_surface_image_" ++ side).flatten

def NewscaleLog.lims_upload_labels : List String := ["newstep_csv"]

def Notebook.lims_upload_labels : List String :=
  ["area_classifications", "fiducial_image", "overlay_image",
   "insertion_location_image", "isi_registration_coordinates",
   "isi _registration_coordinates",
   "probelocator_insertions_in_vasculature_image_space",
   "probelocator_insertions_in_rig_image_space"]

def Surgery.lims_upload_labels : List String :=
  ["surgery_notes", "post_removal_surgery_image", "final_surgery_image"]

/-- Every descriptive name some `Entry` subclass recognizes, in
`Entry.__subclasses__()` order (platform_json.py:1159). -/
def lims_upload_labels_all : List String :=
  EphysSorted.lims_upload_labels ++ EphysRaw.lims_upload_labels
    ++ Sync.lims_upload_labels ++ Camstim.lims_upload_labels
    ++ VideoTracking.lims_upload_labels ++ VideoInfo.lims_upload_labels
    ++ SurfaceImage.lims_upload_labels ++ NewscaleLog.lims_upload_labels
    ++ Notebook.lims_upload_labels ++ Surgery.lims_upload_labels

/-- The `isi_registration_coordinates` ↔ `isi _registration_coordinates`
swap in `Entry.__init__` (platform_json.py:407-412), applied when
`dict_expected.get(descriptive_name, None)` is falsy. -/
def entry_descriptive_name
    (dict_expected : List (String × List (String × String))) (k : String) : String :=
  match dict_expected.find? fun kv => kv.1 == k with
  | some kv =>
    if kv.2.isEmpty then
      if k = "isi_registration_coordinates" then "isi _registration_coordinates"
      else if k = "isi _registration_coordinates" then "isi_registration_coordinates"
      else k
    else k
  | none =>
    if k = "isi_registration_coordinates" then "isi _registration_coordinates"
    else if k = "isi _registration_coordinates" then "isi_registration_coordinates"
    else k

/-- One `Entry` as far as `fix_dict` observes it. -/
structure EntryRec where
  descriptive_name : String
  dir_or_file_type : String
  dir_or_file_name : String
deriving DecidableEq, Repr

inductive EntryErr where
  | indexError
  | valueError
deriving DecidableEq, Repr

/-- `Files.entry_from_dict` (platform_json.py:1157-1162): construct the
`Entry` (whose `__init__` reads the first key/value of the inner dict
and may apply the isi name swap), then require some subclass to
recognize the descriptive name, else `ValueError`.  An empty inner dict
is an `IndexError` inside `Entry.__init__`. -/
def entry_from_dict (dict_expected : List (String × List (String × String)))
    (k : String) (tn : List (String × String)) : Except EntryErr EntryRec :=
  match tn with
  | [] => Except.error EntryErr.indexError
  | (t, n) :: _ =>
    let d := entry_descriptive_name dict_expected k
    if lims_upload_labels_all.contains d then Except.ok (EntryRec.mk d t n)
    else Except.error EntryErr.valueError

/-- `Files.dict_extra` (platform_json.py:1138-1140): entries of the
current manifest whose key is absent from the expanded template. -/
def dict_extra (dict_current dict_expected : List (String × List (String × String))) :
    List (String × List (String × String)) :=
  dict_current.filter fun kv => (dict_expected.find? fun kv2 => kv2.1 == kv.1).isNone

/-- The log line printed when an extra entry is dropped
(platform_json.py:1281). -/
def remove_msg (e : EntryRec) : String :=
  e.descriptive_name ++ " removed from platform.json: specified data does not exist "
    ++ e.dir_or_file_name ++ " "

/-- `Files.fix_dict` (platform_json.py:1262-1281): build an `Entry` for
every extra manifest entry, keep (append to `entries_corrected`) those
whose referenced data still exists on disk, and emit a log line for each
dropped one.  Result: the updated `entries_corrected` and the log
lines. -/
def fix_dict (dict_current dict_expected : List (String × List (String × String)))
    (actualExists : String → Bool) (entries_corrected : List EntryRec) :
    Except EntryErr (List EntryRec × List String) :=
  match (dict_extra dict_current dict_expected).mapM
      (fun kv => entry_from_dict dict_expected kv.1 kv.2) with
  | Except.error e => Except.error e
  | Except.ok extra =>
    Except.ok (extra.foldl
      (fun acc e =>
        if actualExists e.dir_or_file_name then (acc.1 ++ [e], acc.2)
        else (acc.1, acc.2 ++ [remove_msg e]))
      (entries_corrected, []))

lemma keep_drop_foldl (p : EntryRec → Bool) :
    ∀ (extra : List EntryRec) (acc1 : List EntryRec) (acc2 : List String),
      extra.foldl
        (fun acc e => if p e then (acc.1 ++ [e], acc.2)
          else (acc.1, acc.2 ++ [remove_msg e])) (acc1, acc2)
      = (acc1 ++ extra.filter p,
         acc2 ++ (extra.filter fun e => !(p e)).map remove_msg) := by
  intro extra
  induction extra with
  | nil => intro acc1 acc2; simp
  | cons e t ih =>
    intro acc1 acc2
    cases hp : p e <;>
      simp [List.foldl_cons, List.filter_cons, hp, ih]

/-- C9: when every extra entry is recognized (so `fix_dict` completes
rather than raising), `fix_dict` appends to `entries_corrected` exactly
the extra entries whose referenced data exists on disk, and emits one
log line per dropped entry; in particular an extra entry is kept iff its
data exists, and an entry with existing data is never dropped. -/
theorem fix_dict_keeps_iff_data_exists :
    ∀ (dict_current dict_expected : List (String × List (String × String)))
      (actualExists : String → Bool) (entries_corrected : List EntryRec)
      (extra : List EntryRec),
      (dict_extra dict_current dict_expected).mapM
        (fun kv => entry_from_dict dict_expected kv.1 kv.2) = Except.ok extra →
      fix_dict dict_current dict_expected actualExists entries_corrected =
        Except.ok
          (entries_corrected ++ extra.filter (fun e => actualExists e.dir_or_file_name),
           (extra.filter fun e => !(actualExists e.dir_or_file_name)).map remove_msg)
      ∧ ∀ e : EntryRec,
          (e ∈ entries_corrected ++ extra.filter (fun e => actualExists e.dir_or_file_name)
            ↔ e ∈ entries_corrected
              ∨ (e ∈ extra ∧ actualExists e.dir_or_file_name = true)) := by
  intro dict_current dict_expected actualExists entries_corrected extra hok
  constructor
  · unfold fix_dict
    simp only [hok]
    rw [keep_drop_foldl]
    simp
  · intro e
    simp [List.mem_append, List.mem_filter]

/-- Witness for C9: two extra video-tracking entries, one with data on
disk and one without — the first is kept, the second dropped with a log
line. -/
theorem fix_dict_keeps_iff_data_exists_witness :
    fix_dict
        [("behavior_tracking", [("filename", "b.mp4")]),
         ("eye_tracking", [("filename", "e.mp4")])]
        [] (fun s => s == "b.mp4") [] =
      Except.ok ([EntryRec.mk "behavior_tracking" "filename" "b.mp4"],
        [remove_msg (EntryRec.mk "eye_tracking" "filename" "e.mp4")]) := by
  have h := (fix_dict_keeps_iff_data_exists
    [("behavior_tracking", [("filename", "b.mp4")]),
     ("eye_tracking", [("filename", "e.mp4")])]
    [] (fun s => s == "b.mp4") []
    [EntryRec.mk "behavior_tracking" "filename" "b.mp4",
     EntryRec.mk "eye_tracking" "filename" "e.mp4"] (by rfl)).1
  simpa using h

/-! ## Entry.copy (C8)

`Entry.copy` (platform_json.py:514-586).  Sources are the paths from
`self.sources`; the destination is a fixed path whose current contents
evolve as copies happen.  `FsObj` carries what the code observes of an
existing filesystem object: its kind, its `stat().st_size` (for a
directory: its total recursive `dir_size`, which is what
`get_largest_dir([source, dest])` compares), and its content hash (the
md5 the code computes on equal-size files).  The physical effect of a
copy (`shutil.copytree(..., dirs_exist_ok=True)` for directories,
`strategies.copy_file` for files, symlinks in staging mode) is abstracted
as an arbitrary destination update `upd`, and `self.correct_data` after a
copy as an arbitrary predicate `correct`, both universally quantified in
the theorems.  The result is the trace of observable events. -/

inductive FsKind where
  | file
  | dir
deriving DecidableEq, Repr

structure FsObj where
  kind : FsKind
  size : Nat
  hash : Nat
deriving DecidableEq, Repr

/-- A candidate source path: `obj = none` models `not source.exists()`. -/
structure SrcPath where
  path : Nat
  obj : Option FsObj
deriving DecidableEq, Repr

inductive CopyEv where
  | copied (src : SrcPath) (destObj : Option FsObj)
  | skipIdentical (src : SrcPath) (destObj : Option FsObj)
  | abortDestLarger (src : SrcPath) (destObj : Option FsObj)
deriving DecidableEq, Repr

inductive CheckResult where
  | proceed
  | abortLarger
  | skipIdent
deriving DecidableEq, Repr

/-- The pre-copy comparisons of `Entry.copy` for one source against the
current destination (platform_json.py:534-566).  Directory vs directory:
`get_largest_dir([source, dest])` returns the strictly larger of the
two (or `None` on a tie), and the method returns only when `dest` is
the larger.  File vs file: empty or smaller destination falls through
to the copy; equal sizes compare md5 hashes and return only when they
are identical; a strictly larger destination returns.  Any other
combination (destination absent, or kinds differing) falls through to
the copy. -/
def pre_copy_check (so : FsObj) : Option FsObj → CheckResult
  | none => CheckResult.proceed
  | some dobj =>
    if so.kind = FsKind.dir ∧ dobj.kind = FsKind.dir then
      if so.size < dobj.size then CheckResult.abortLarger else CheckResult.proceed
    else if so.kind = FsKind.file ∧ dobj.kind = FsKind.file then
      if dobj.size = 0 then CheckResult.proceed
      else if dobj.size < so.size then CheckResult.proceed
      else if dobj.size = so.size then
        (if dobj.hash = so.hash then CheckResult.skipIdent else CheckResult.proceed)
      else CheckResult.abortLarger
    else CheckResult.proceed

/-- The `for source in self.sources` loop of `Entry.copy`
(platform_json.py:526-586): skip missing sources and the destination
itself; run the pre-copy comparisons (`return` on a strictly larger
destination or on identical files); otherwise copy and stop early when
`self.correct_data` becomes true.  `Entry.copy` with no sources
(platform_json.py:517-519) is the empty trace. -/
def Entry.copy (upd : SrcPath → Option FsObj → Option FsObj)
    (correct : Option FsObj → Bool) (destPath : Nat) :
    List SrcPath → Option FsObj → List CopyEv
  | [], _ => []
  | s :: rest, d =>
    match s.obj with
    | none => Entry.copy upd correct destPath rest d
    | some so =>
      if s.path = destPath then Entry.copy upd correct destPath rest d
      else
        match pre_copy_check so d with
        | CheckResult.abortLarger => [CopyEv.abortDestLarger s d]
        | CheckResult.skipIdent => [CopyEv.skipIdentical s d]
        | CheckResult.proceed =>
          let d2 := upd s d
          CopyEv.copied s d ::
            (if correct d2 then [] else Entry.copy upd correct destPath rest d2)

lemma pre_check_proceed {so : FsObj} {d : Option FsObj} {dobj : FsObj}
    (h : pre_copy_check so d = CheckResult.proceed) (hd : d = some dobj) :
    ¬(so.kind = dobj.kind ∧ so.size < dobj.size) := by
  subst hd
  simp only [pre_copy_check] at h
  rintro ⟨hk, hlt⟩
  cases hsk : so.kind with
  | dir =>
    rw [if_pos ⟨hsk, hsk ▸ hk.symm⟩] at h
    rw [if_pos hlt] at h
    exact CheckResult.noConfusion h
  | file =>
    rw [if_neg (by rw [hsk]; rintro ⟨h1, -⟩; exact FsKind.noConfusion h1),
      if_pos ⟨hsk, hsk ▸ hk.symm⟩] at h
    have h0 : ¬(dobj.size = 0) := by omega
    have hlt2 : ¬(dobj.size < so.size) := by omega
    have heq : ¬(dobj.size = so.size) := by omega
    rw [if_neg h0, if_neg hlt2, if_neg heq] at h
    exact CheckResult.noConfusion h

lemma pre_check_abort {so : FsObj} {d : Option FsObj}
    (h : pre_copy_check so d = CheckResult.abortLarger) :
    ∃ dobj, d = some dobj ∧ so.kind = dobj.kind ∧ so.size < dobj.size := by
  cases d with
  | none => exact CheckResult.noConfusion h
  | some dobj =>
    refine ⟨dobj, rfl, ?_⟩
    simp only [pre_copy_check] at h
    by_cases hdir : so.kind = FsKind.dir ∧ dobj.kind = FsKind.dir
    · rw [if_pos hdir] at h
      by_cases hlt : so.size < dobj.size
      · exact ⟨hdir.1.trans hdir.2.symm, hlt⟩
      · rw [if_neg hlt] at h
        exact absurd h (by decide)
    · rw [if_neg hdir] at h
      by_cases hfile : so.kind = FsKind.file ∧ dobj.kind = FsKind.file
      · rw [if_pos hfile] at h
        by_cases h0 : dobj.size = 0
        · rw [if_pos h0] at h
          exact absurd h (by decide)
        by_cases hlt : dobj.size < so.size
        · rw [if_neg h0, if_pos hlt] at h
          exact absurd h (by decide)
        by_cases heq : dobj.size = so.size
        · rw [if_neg h0, if_neg hlt, if_pos heq] at h
          by_cases hh : dobj.hash = so.hash <;>
            [rw [if_pos hh] at h; rw [if_neg hh] at h] <;>
            exact absurd h (by decide)
        · exact ⟨hfile.1.trans hfile.2.symm, by omega⟩
      · rw [if_neg hfile] at h
        exact absurd h (by decide)

lemma pre_check_skip {so : FsObj} {d : Option FsObj}
    (h : pre_copy_check so d = CheckResult.skipIdent) :
    ∃ dobj, d = some dobj ∧ so.kind = FsKind.file ∧ dobj.kind = FsKind.file
      ∧ so.size = dobj.size ∧ so.hash = dobj.hash := by
  cases d with
  | none => exact CheckResult.noConfusion h
  | some dobj =>
    refine ⟨dobj, rfl, ?_⟩
    simp only [pre_copy_check] at h
    by_cases hdir : so.kind = FsKind.dir ∧ dobj.kind = FsKind.dir
    · rw [if_pos hdir] at h
      by_cases hlt : so.size < dobj.size <;>
        [rw [if_pos hlt] at h; rw [if_neg hlt] at h] <;>
        exact absurd h (by decide)
    · rw [if_neg hdir] at h
      by_cases hfile : so.kind = FsKind.file ∧ dobj.kind = FsKind.file
      · rw [if_pos hfile] at h
        by_cases h0 : dobj.size = 0
        · rw [if_pos h0] at h
          exact absurd h (by decide)
        by_cases hlt : dobj.size < so.size
        · rw [if_neg h0, if_pos hlt] at h
          exact absurd h (by decide)
        by_cases heq : dobj.size = so.size
        · rw [if_neg h0, if_neg hlt, if_pos heq] at h
          by_cases hh : dobj.hash = so.hash
          · exact ⟨hfile.1, hfile.2, heq.symm, hh.symm⟩
          · rw [if_neg hh] at h
            exact absurd h (by decide)
        · rw [if_neg h0, if_neg hlt, if_neg heq] at h
          exact absurd h (by decide)
      · rw [if_neg hfile] at h
        exact absurd h (by decide)

lemma copy_copied_not_larger (upd : SrcPath → Option FsObj → Option FsObj)
    (correct : Option FsObj → Bool) (destPath : Nat) :
    ∀ (sources : List SrcPath) (d : Option FsObj) (s : SrcPath) (dOpt : Option FsObj),
      CopyEv.copied s dOpt ∈ Entry.copy upd correct destPath sources d →
      ∀ so dobj, s.obj = some so → dOpt = some dobj →
        ¬(so.kind = dobj.kind ∧ so.size < dobj.size) := by
  intro sources
  induction sources with
  | nil =>
    intro d s dOpt hmem
    simp [Entry.copy] at hmem
  | cons x rest ih =>
    intro d s dOpt hmem so dobj hso hdo
    cases hobj : x.obj with
    | none =>
      simp only [Entry.copy, hobj] at hmem
      exact ih d s dOpt hmem so dobj hso hdo
    | some xo =>
      simp only [Entry.copy, hobj] at hmem
      by_cases hpath : x.path = destPath
      · rw [if_pos hpath] at hmem
        exact ih d s dOpt hmem so dobj hso hdo
      · rw [if_neg hpath] at hmem
        cases hchk : pre_copy_check xo d with
        | abortLarger =>
          rw [hchk] at hmem
          simp at hmem
        | skipIdent =>
          rw [hchk] at hmem
          simp at hmem
        | proceed =>
          rw [hchk] at hmem
          rcases List.mem_cons.mp hmem with heq | htail
          · obtain ⟨rfl, rfl⟩ := CopyEv.copied.inj heq
            rw [hobj] at hso
            obtain rfl := Option.some.inj hso
            exact pre_check_proceed hchk hdo
          · cases hc : correct (upd x d) with
            | true =>
              rw [if_pos hc] at htail
              simp at htail
            | false =>
              rw [if_neg (by rw [hc]; exact Bool.false_ne_true)] at htail
              exact ih (upd x d) s dOpt htail so dobj hso hdo

lemma copy_skip_only_identical (upd : SrcPath → Option FsObj → Option FsObj)
    (correct : Option FsObj → Bool) (destPath : Nat) :
    ∀ (sources : List SrcPath) (d : Option FsObj) (s : SrcPath) (dOpt : Option FsObj),
      CopyEv.skipIdentical s dOpt ∈ Entry.copy upd correct destPath sources d →
      ∃ so dobj, s.obj = some so ∧ dOpt = some dobj
        ∧ so.kind = FsKind.file ∧ dobj.kind = FsKind.file
        ∧ so.size = dobj.size ∧ so.hash = dobj.hash := by
  intro sources
  induction sources with
  | nil =>
    intro d s dOpt hmem
    simp [Entry.copy] at hmem
  | cons x rest ih =>
    intro d s dOpt hmem
    cases hobj : x.obj with
    | none =>
      simp only [Entry.copy, hobj] at hmem
      exact ih d s dOpt hmem
    | some xo =>
      simp only [Entry.copy, hobj] at hmem
      by_cases hpath : x.path = destPath
      · rw [if_pos hpath] at hmem
        exact ih d s dOpt hmem
      · rw [if_neg hpath] at hmem
        cases hchk : pre_copy_check xo d with
        | abortLarger =>
          rw [hchk] at hmem
          simp at hmem
        | skipIdent =>
          rw [hchk] at hmem
          simp only [List.mem_singleton] at hmem
          obtain ⟨rfl, rfl⟩ := CopyEv.skipIdentical.inj hmem
          obtain ⟨dobj, hd, hk1, hk2, hsz, hh⟩ := pre_check_skip hchk
          exact ⟨xo, dobj, hobj, hd, hk1, hk2, hsz, hh⟩
        | proceed =>
          rw [hchk] at hmem
          rcases List.mem_cons.mp hmem with heq | htail
          · exact absurd heq (by intro hx; exact CopyEv.noConfusion hx)
          · cases hc : correct (upd x d) with
            | true =>
              rw [if_pos hc] at htail
              simp at htail
            | false =>
              rw [if_neg (by rw [hc]; exact Bool.false_ne_true)] at htail
              exact ih (upd x d) s dOpt htail

lemma copy_abort_only_larger (upd : SrcPath → Option FsObj → Option FsObj)
    (correct : Option FsObj → Bool) (destPath : Nat) :
    ∀ (sources : List SrcPath) (d : Option FsObj) (s : SrcPath) (dOpt : Option FsObj),
      CopyEv.abortDestLarger s dOpt ∈ Entry.copy upd correct destPath sources d →
      ∃ so dobj, s.obj = some so ∧ dOpt = some dobj
        ∧ so.kind = dobj.kind ∧ so.size < dobj.size := by
  intro sources
  induction sources with
  | nil =>
    intro d s dOpt hmem
    simp [Entry.copy] at hmem
  | cons x rest ih =>
    intro d s dOpt hmem
    cases hobj : x.obj with
    | none =>
      simp only [Entry.copy, hobj] at hmem
      exact ih d s dOpt hmem
    | some xo =>
      simp only [Entry.copy, hobj] at hmem
      by_cases hpath : x.path = destPath
      · rw [if_pos hpath] at hmem
        exact ih d s dOpt hmem
      · rw [if_neg hpath] at hmem
        cases hchk : pre_copy_check xo d with
        | abortLarger =>
          rw [hchk] at hmem
          simp only [List.mem_singleton] at hmem
          obtain ⟨rfl, rfl⟩ := CopyEv.abortDestLarger.inj hmem
          obtain ⟨dobj, hd, hk, hlt⟩ := pre_check_abort hchk
          exact ⟨xo, dobj, hobj, hd, hk, hlt⟩
        | skipIdent =>
          rw [hchk] at hmem
          simp at hmem
        | proceed =>
          rw [hchk] at hmem
          rcases List.mem_cons.mp hmem with heq | htail
          · exact absurd heq (by intro hx; exact CopyEv.noConfusion hx)
          · cases hc : correct (upd x d) with
            | true =>
              rw [if_pos hc] at htail
              simp at htail
            | false =>
              rw [if_neg (by rw [hc]; exact Bool.false_ne_true)] at htail
              exact ih (upd x d) s dOpt htail

lemma copy_abort_terminal (upd : SrcPath → Option FsObj → Option FsObj)
    (correct : Option FsObj → Bool) (destPath : Nat) :
    ∀ (sources : List SrcPath) (d : Option FsObj) (pre : List CopyEv)
      (s : SrcPath) (dOpt : Option FsObj) (post : List CopyEv),
      Entry.copy upd correct destPath sources d =
        pre ++ CopyEv.abortDestLarger s dOpt :: post → post = [] := by
  intro sources
  induction sources with
  | nil =>
    intro d pre s dOpt post h
    have hl := congrArg List.length h
    simp only [Entry.copy, List.length_nil, List.length_append,
      List.length_cons] at hl
    omega
  | cons x rest ih =>
    intro d pre s dOpt post h
    cases hobj : x.obj with
    | none =>
      simp only [Entry.copy, hobj] at h
      exact ih d pre s dOpt post h
    | some xo =>
      simp only [Entry.copy, hobj] at h
      by_cases hpath : x.path = destPath
      · rw [if_pos hpath] at h
        exact ih d pre s dOpt post h
      · rw [if_neg hpath] at h
        cases hchk : pre_copy_check xo d with
        | abortLarger =>
          rw [hchk] at h
          have hl := congrArg List.length h
          simp only [List.length_cons, List.length_append, List.length_nil] at hl
          exact List.eq_nil_of_length_eq_zero (by omega)
        | skipIdent =>
          rw [hchk] at h
          have hl := congrArg List.length h
          simp only [List.length_cons, List.length_append, List.length_nil] at hl
          exact List.eq_nil_of_length_eq_zero (by omega)
        | proceed =>
          rw [hchk] at h
          cases pre with
          | nil =>
            simp only [List.nil_append] at h
            exact absurd (List.head_eq_of_cons_eq h)
              (by intro hx; exact CopyEv.noConfusion hx)
          | cons q qs =>
            simp only [List.cons_append] at h
            have htail := List.tail_eq_of_cons_eq h
            cases hc : correct (upd x d) with
            | true =>
              rw [if_pos hc] at htail
              have hl := congrArg List.length htail
              simp only [List.length_nil, List.length_append,
                List.length_cons] at hl
              omega
            | false =>
              rw [if_neg (by rw [hc]; exact Bool.false_ne_true)] at htail
              exact ih (upd x d) qs s dOpt post htail

/-- C8: `Entry.copy` never replaces strictly larger existing destination
data with smaller source data, for files (by `st_size`) and directories
(by total recursive size) alike: a copy is only ever performed when the
destination, at that moment, is not a strictly larger object of the same
kind; an `skip-identical` early return happens only for equal-size files
whose content hashes were computed and found identical; a
`destination-larger` early return happens only when the destination is a
strictly larger object of the same kind, and it ends the call — nothing
is copied afterwards.  Quantified over every destination-update effect
`upd` and every `correct_data` predicate `correct`. -/
theorem copy_never_clobbers_larger_dest :
    ∀ (upd : SrcPath → Option FsObj → Option FsObj)
      (correct : Option FsObj → Bool) (destPath : Nat)
      (sources : List SrcPath) (d : Option FsObj),
      (∀ s dOpt, CopyEv.copied s dOpt ∈ Entry.copy upd correct destPath sources d →
        ∀ so dobj, s.obj = some so → dOpt = some dobj →
          ¬(so.kind = dobj.kind ∧ so.size < dobj.size))
      ∧ (∀ s dOpt,
          CopyEv.skipIdentical s dOpt ∈ Entry.copy upd correct destPath sources d →
          ∃ so dobj, s.obj = some so ∧ dOpt = some dobj
            ∧ so.kind = FsKind.file ∧ dobj.kind = FsKind.file
            ∧ so.size = dobj.size ∧ so.hash = dobj.hash)
      ∧ (∀ s dOpt,
          CopyEv.abortDestLarger s dOpt ∈ Entry.copy upd correct destPath sources d →
          ∃ so dobj, s.obj = some so ∧ dOpt = some dobj
            ∧ so.kind = dobj.kind ∧ so.size < dobj.size)
      ∧ (∀ pre s dOpt post,
          Entry.copy upd correct destPath sources d =
            pre ++ CopyEv.abortDestLarger s dOpt :: post → post = []) :=
  fun upd correct destPath sources d =>
    ⟨copy_copied_not_larger upd correct destPath sources d,
     copy_skip_only_identical upd correct destPath sources d,
     copy_abort_only_larger upd correct destPath sources d,
     copy_abort_terminal upd correct destPath sources d⟩

/-- Witness for C8: a 3-byte source file against an existing 5-byte
destination file aborts the copy, and the theorem recovers that the
destination was strictly larger. -/
theorem copy_never_clobbers_larger_dest_witness :
    ∃ so dobj,
      (SrcPath.mk 1 (some (FsObj.mk FsKind.file 3 7))).obj = some so
      ∧ (some (FsObj.mk FsKind.file 5 8) : Option FsObj) = some dobj
      ∧ so.kind = dobj.kind ∧ so.size < dobj.size :=
  (copy_never_clobbers_larger_dest (fun s _ => s.obj) (fun _ => false) 99
      [SrcPath.mk 1 (some (FsObj.mk FsKind.file 3 7))]
      (some (FsObj.mk FsKind.file 5 8))).2.2.1
    (SrcPath.mk 1 (some (FsObj.mk FsKind.file 3 7)))
    (some (FsObj.mk FsKind.file 5 8))
    (by decide)

/-! ## Template expansion (C2)

`Files.dict_expected` (platform_json.py:1127-1132):

    json.loads(str(self.dict_template).replace('%', str(self.session.folder)).replace("'", '"'))

A template (`dict_template`, the `files` value of a manifest template:
a dict of dicts of strings) is an insertion-ordered association list
`List (String × List (String × String))`.  We embed, character by
character: Python `str()`/`repr()` of such a dict, Python
`str.replace` for a one-character pattern, and a JSON parser covering
the grammar `json.loads` is given here (an object whose values are
objects of strings, with standard whitespace and escape handling; the
`\\uXXXX` escape is not produced by any input of this embedding and
parses as a failure).  Python dict construction (later duplicate keys
overwrite in place) is `pyDict`. -/

def sq : Char := Char.ofNat 39
def dq : Char := Char.ofNat 34
def bsl : Char := Char.ofNat 92
def lbrace : Char := Char.ofNat 123
def rbrace : Char := Char.ofNat 125

/-- Quote character `repr` picks for a Python string: single quotes,
unless the string contains a single quote and no double quote. -/
def pyReprQuote (cs : List Char) : Char :=
  if cs.contains sq ∧ ¬cs.contains dq then dq else sq

/-- `repr` of one character of a Python string: escape the backslash and
the chosen quote, everything else (printable) verbatim. -/
def pyReprChar (q : Char) (c : Char) : List Char :=
  if c = bsl then [bsl, bsl]
  else if c = q then [bsl, c]
  else [c]

/-- Python `repr` of a string of printable characters. -/
def pyRepr (s : String) : List Char :=
  let cs := s.toList
  let q := pyReprQuote cs
  q :: (cs.map (pyReprChar q)).flatten ++ [q]

/-- `", ".join(pieces)`, the item joiner of Python `str(dict)`. -/
def joinComma : List (List Char) → List Char
  | [] => []
  | [x] => x
  | x :: y :: rest => x ++ ',' :: ' ' :: joinComma (y :: rest)

/-- Python `str()` of an inner dict `{str: str}`. -/
def pyStrInner (d : List (String × String)) : List Char :=
  lbrace :: joinComma (d.map fun kv => pyRepr kv.1 ++ ':' :: ' ' :: pyRepr kv.2)
    ++ [rbrace]

/-- Python `str()` of the template dict `{str: {str: str}}`. -/
def pyStrTop (t : List (String × List (String × String))) : List Char :=
  lbrace :: joinComma (t.map fun kv => pyRepr kv.1 ++ ':' :: ' ' :: pyStrInner kv.2)
    ++ [rbrace]

/-- Python `str.replace(pat, rep)` for a one-character pattern: scan
left to right, never re-scanning the replacement. -/
def replaceChar (pat : Char) (rep : List Char) : List Char → List Char
  | [] => []
  | c :: rest =>
    if c = pat then rep ++ replaceChar pat rep rest
    else c :: replaceChar pat rep rest

/-- JSON whitespace skipping (`json.loads` accepts space, tab, newline,
carriage return between tokens). -/
def skipWs : List Char → List Char
  | [] => []
  | c :: rest =>
    if c = ' ' ∨ c = Char.ofNat 9 ∨ c = Char.ofNat 10 ∨ c = Char.ofNat 13 then
      skipWs rest
    else c :: rest

/-- JSON string escapes (the `\\uXXXX` form is absent from every string
this embedding can produce and is treated as a parse failure). -/
def unescape (c : Char) : Option Char :=
  if c = dq then some dq
  else if c = bsl then some bsl
  else if c = '/' then some '/'
  else if c = 'n' then some (Char.ofNat 10)
  else if c = 't' then some (Char.ofNat 9)
  else if c = 'r' then some (Char.ofNat 13)
  else if c = 'b' then some (Char.ofNat 8)
  else if c = 'f' then some (Char.ofNat 12)
  else none

/-- Body of a JSON string after the opening quote: collect characters up
to the closing quote, processing escapes, rejecting raw control
characters (strict `json.loads`). -/
def parseStringBody (acc : List Char) : List Char → Option (List Char × List Char)
  | [] => none
  | c :: rest =>
    if c = dq then some (acc.reverse, rest)
    else if c = bsl then
      match rest with
      | [] => none
      | e :: rest2 =>
        match unescape e with
        | some c2 => parseStringBody (c2 :: acc) rest2
        | none => none
    else if c.toNat < 32 then none
    else parseStringBody (c :: acc) rest

/-- A JSON string token (no leading whitespace). -/
def parseString (s : List Char) : Option (List Char × List Char) :=
  match s with
  | c :: rest => if c = dq then parseStringBody [] rest else none
  | [] => none

/-- The next non-whitespace character and everything after it. -/
def nextTok (s : List Char) : Option (Char × List Char) :=
  match skipWs s with
  | c :: rest => some (c, rest)
  | [] => none

/-- Expect a specific punctuation character, whitespace allowed before
it. -/
def expectChar (c : Char) (s : List Char) : Option (List Char) :=
  (nextTok s).bind fun cs => if cs.1 = c then some cs.2 else none

/-- Members of an inner object `"k": "v", ...` up to and including the
closing brace.  Fuel bounds the number of members. -/
def parseInnerMembers : Nat → List Char → Option (List (String × String) × List Char)
  | 0, _ => none
  | fuel + 1, s =>
    (parseString (skipWs s)).bind fun ks =>
    (expectChar ':' ks.2).bind fun s2 =>
    (parseString (skipWs s2)).bind fun vs =>
    (nextTok vs.2).bind fun cs =>
    if cs.1 = ',' then
      (parseInnerMembers fuel cs.2).bind fun rs =>
        some ((String.mk ks.1, String.mk vs.1) :: rs.1, rs.2)
    else if cs.1 = rbrace then some ([(String.mk ks.1, String.mk vs.1)], cs.2)
    else none

/-- An inner object `{...}` whose values are strings. -/
def parseInnerObj (fuel : Nat) (s : List Char) :
    Option (List (String × String) × List Char) :=
  (nextTok s).bind fun cs =>
    if cs.1 = lbrace then
      (nextTok cs.2).bind fun cs2 =>
        if cs2.1 = rbrace then some ([], cs2.2)
        else parseInnerMembers fuel (cs2.1 :: cs2.2)
    else none

/-- Members of the top-level object, whose values are inner objects. -/
def parseTopMembers : Nat → List Char →
    Option (List (String × List (String × String)) × List Char)
  | 0, _ => none
  | fuel + 1, s =>
    (parseString (skipWs s)).bind fun ks =>
    (expectChar ':' ks.2).bind fun s2 =>
    (parseInnerObj fuel s2).bind fun vs =>
    (nextTok vs.2).bind fun cs =>
    if cs.1 = ',' then
      (parseTopMembers fuel cs.2).bind fun rs =>
        some ((String.mk ks.1, vs.1) :: rs.1, rs.2)
    else if cs.1 = rbrace then some ([(String.mk ks.1, vs.1)], cs.2)
    else none

/-- `json.loads` on the grammar reachable from `dict_expected`: one
top-level object of objects of strings, and nothing but whitespace after
it. -/
def parse_json (s : List Char) :
    Option (List (String × List (String × String))) :=
  (nextTok s).bind fun cs =>
    if cs.1 = lbrace then
      (nextTok cs.2).bind fun cs2 =>
        if cs2.1 = rbrace then
          (if (skipWs cs2.2).isEmpty then some [] else none)
        else
          (parseTopMembers (s.length + 1) (cs2.1 :: cs2.2)).bind fun os =>
            if (skipWs os.2).isEmpty then some os.1 else none
    else none

/-- Python dict assignment on an association list (overwrite in place,
else append); generic version of `dictSet`. -/
def assocSet {α : Type} : List (String × α) → String → α → List (String × α)
  | [], k, v => [(k, v)]
  | kv :: rest, k, v =>
    if kv.1 == k then (kv.1, v) :: rest else kv :: assocSet rest k v

/-- Python dict construction from a key/value sequence: later duplicates
overwrite earlier ones in place. -/
def pyDict {α : Type} (l : List (String × α)) : List (String × α) :=
  l.foldl (fun acc kv => assocSet acc kv.1 kv.2) []

/-- `Files.dict_expected` (platform_json.py:1127-1132): stringify the
template dict, substitute every `%` with the session folder string,
swap single quotes for double quotes, parse the result as JSON
(building Python dicts), `none` on `json.JSONDecodeError`. -/
def dict_expected (template : List (String × List (String × String)))
    (folder : String) : Option (List (String × List (String × String))) :=
  match parse_json
      (replaceChar sq [dq] (replaceChar '%' folder.toList (pyStrTop template))) with
  | some obj => some (pyDict (obj.map fun kv => (kv.1, pyDict kv.2)))
  | none => none

/-- Verbatim `%` → folder substitution on one string. -/
def substStr (folder : String) (s : String) : String :=
  String.mk (replaceChar '%' folder.toList s.toList)

/-- The template with every `%` occurrence (in keys and values)
replaced by the folder string: the value C2 asserts `dict_expected`
produces. -/
def substTemplate (template : List (String × List (String × String)))
    (folder : String) : List (String × List (String × String)) :=
  template.map fun kv =>
    (substStr folder kv.1, kv.2.map fun ab => (substStr folder ab.1, substStr folder ab.2))

/-- A character that survives the stringify/substitute/requote pipeline
verbatim: printable ASCII, not a quote of either kind, not a
backslash. -/
def plainChar (c : Char) : Bool :=
  !(c == sq) && !(c == dq) && !(c == bsl)
    && decide (32 ≤ c.toNat) && decide (c.toNat < 127)

def plainStr (s : String) : Bool := s.toList.all plainChar

/-- The canonical JSON form of a plain string, as produced by the
quote-swap on the `repr` of a quote-free string. -/
def jsonStr (s : String) : List Char := dq :: (s.toList ++ [dq])

/-- The canonical JSON text of an inner object of plain strings. -/
def jsonInner (d : List (String × String)) : List Char :=
  lbrace :: (joinComma (d.map fun kv => jsonStr kv.1 ++ ':' :: ' ' :: jsonStr kv.2)
    ++ [rbrace])

/-- The canonical JSON text of the whole template object. -/
def jsonTop (t : List (String × List (String × String))) : List Char :=
  lbrace :: (joinComma (t.map fun kv => jsonStr kv.1 ++ ':' :: ' ' :: jsonInner kv.2)
    ++ [rbrace])

lemma string_toList_mk (cs : List Char) : (String.mk cs).toList = cs := rfl

lemma string_mk_toList (s : String) : String.mk s.toList = s := by
  cases s
  rfl

lemma string_mk_data (s : String) : String.mk s.data = s := by
  cases s
  rfl

lemma plainChar_spec {c : Char} (h : plainChar c = true) :
    c ≠ sq ∧ c ≠ dq ∧ c ≠ bsl ∧ 32 ≤ c.toNat ∧ c.toNat < 127 := by
  simp only [plainChar, Bool.and_eq_true, Bool.not_eq_true', beq_eq_false_iff_ne,
    decide_eq_true_eq] at h
  exact ⟨h.1.1.1.1, h.1.1.1.2, h.1.1.2, h.1.2, h.2⟩

lemma skipWs_space (l : List Char) : skipWs (' ' :: l) = skipWs l := by
  rw [skipWs]
  rw [if_pos (Or.inl rfl)]

lemma skipWs_not_ws {c : Char}
    (h : ¬(c = ' ' ∨ c = Char.ofNat 9 ∨ c = Char.ofNat 10 ∨ c = Char.ofNat 13))
    (l : List Char) : skipWs (c :: l) = c :: l := by
  rw [skipWs]
  rw [if_neg h]

lemma skipWs_dq (l : List Char) : skipWs (dq :: l) = dq :: l :=
  skipWs_not_ws (by decide) l

lemma skipWs_colon (l : List Char) : skipWs (':' :: l) = ':' :: l :=
  skipWs_not_ws (by decide) l

lemma skipWs_lbrace (l : List Char) : skipWs (lbrace :: l) = lbrace :: l :=
  skipWs_not_ws (by decide) l

lemma skipWs_rbrace (l : List Char) : skipWs (rbrace :: l) = rbrace :: l :=
  skipWs_not_ws (by decide) l

lemma nextTok_dq (l : List Char) : nextTok (dq :: l) = some (dq, l) := by
  unfold nextTok
  rw [skipWs_dq]

lemma nextTok_lbrace (l : List Char) : nextTok (lbrace :: l) = some (lbrace, l) := by
  unfold nextTok
  rw [skipWs_lbrace]

lemma nextTok_rbrace (l : List Char) : nextTok (rbrace :: l) = some (rbrace, l) := by
  unfold nextTok
  rw [skipWs_rbrace]

lemma nextTok_space (l : List Char) : nextTok (' ' :: l) = nextTok l := by
  unfold nextTok
  rw [skipWs_space]

lemma expectChar_colon (l : List Char) : expectChar ':' (':' :: l) = some l := by
  unfold expectChar nextTok
  rw [skipWs_colon]
  simp

lemma parseStringBody_plain :
    ∀ (cs : List Char), (∀ c ∈ cs, plainChar c = true) →
    ∀ (acc rest : List Char),
    parseStringBody acc (cs ++ dq :: rest) = some (acc.reverse ++ cs, rest) := by
  intro cs
  induction cs with
  | nil =>
    intro _ acc rest
    show parseStringBody acc (dq :: rest) = _
    unfold parseStringBody
    rw [if_pos rfl]
    simp
  | cons c t ih =>
    intro h acc rest
    obtain ⟨-, hdq, hbsl, hge, -⟩ := plainChar_spec (h c (List.mem_cons_self c t))
    show parseStringBody acc (c :: (t ++ dq :: rest)) = _
    unfold parseStringBody
    rw [if_neg hdq, if_neg hbsl, if_neg (by omega)]
    rw [ih (fun x hx => h x (List.mem_cons_of_mem c hx)) (c :: acc) rest]
    simp

lemma parseString_pref (s : String) (h : plainStr s = true) (x : List Char) :
    parseString (skipWs (jsonStr s ++ x)) = some (s.toList, x) := by
  have h1 : jsonStr s ++ x = dq :: (s.toList ++ dq :: x) := by
    simp [jsonStr]
  rw [h1, skipWs_dq]
  simp only [parseString, if_true]
  rw [parseStringBody_plain s.toList (fun c hc => by
    exact List.all_eq_true.mp h c hc) [] x]
  simp

lemma parseInnerMembers_space (f : Nat) (x : List Char) :
    parseInnerMembers f (' ' :: x) = parseInnerMembers f x := by
  cases f with
  | zero => rfl
  | succ f => simp only [parseInnerMembers, skipWs_space]

lemma parseInnerMembers_rt :
    ∀ (d : List (String × String)), d ≠ [] →
    (∀ kv ∈ d, plainStr kv.1 = true ∧ plainStr kv.2 = true) →
    ∀ (fuel : Nat), d.length ≤ fuel → ∀ (rest : List Char),
    parseInnerMembers fuel
      (joinComma (d.map fun kv => jsonStr kv.1 ++ ':' :: ' ' :: jsonStr kv.2)
        ++ rbrace :: rest) = some (d, rest) := by
  intro d
  induction d with
  | nil => intro h; exact absurd rfl h
  | cons kv t ih =>
    intro _ hplain fuel hfuel rest
    obtain ⟨k, v⟩ := kv
    obtain ⟨hk, hv⟩ := hplain (k, v) (List.mem_cons_self _ _)
    cases fuel with
    | zero => simp at hfuel
    | succ f =>
      cases t with
      | nil =>
        have hin : joinComma
              (((k, v) :: ([] : List (String × String))).map fun kv =>
                jsonStr kv.1 ++ ':' :: ' ' :: jsonStr kv.2) ++ rbrace :: rest
            = jsonStr k ++ (':' :: ' ' :: (jsonStr v ++ (rbrace :: rest))) := by
          simp [joinComma, List.append_assoc]
        rw [hin]
        simp only [parseInnerMembers]
        rw [parseString_pref k hk]
        simp only [Option.some_bind]
        rw [expectChar_colon]
        simp only [Option.some_bind]
        rw [skipWs_space, parseString_pref v hv]
        simp only [Option.some_bind]
        rw [nextTok_rbrace]
        simp only [Option.some_bind]
        rw [if_neg (show ¬(rbrace = ',') from by decide)]
        simp [string_mk_toList]
      | cons y t2 =>
        have hin : joinComma
              (((k, v) :: y :: t2).map fun kv =>
                jsonStr kv.1 ++ ':' :: ' ' :: jsonStr kv.2) ++ rbrace :: rest
            = jsonStr k ++ (':' :: ' ' :: (jsonStr v ++ (',' :: ' ' ::
                (joinComma ((y :: t2).map fun kv =>
                  jsonStr kv.1 ++ ':' :: ' ' :: jsonStr kv.2) ++ rbrace :: rest)))) := by
          simp [joinComma, List.append_assoc]
        rw [hin]
        simp only [parseInnerMembers]
        rw [parseString_pref k hk]
        simp only [Option.some_bind]
        rw [expectChar_colon]
        simp only [Option.some_bind]
        rw [skipWs_space, parseString_pref v hv]
        simp only [Option.some_bind]
        have hcomma : nextTok (',' :: ' ' ::
            (joinComma ((y :: t2).map fun kv =>
              jsonStr kv.1 ++ ':' :: ' ' :: jsonStr kv.2) ++ rbrace :: rest))
            = some (',', ' ' ::
              (joinComma ((y :: t2).map fun kv =>
                jsonStr kv.1 ++ ':' :: ' ' :: jsonStr kv.2) ++ rbrace :: rest)) := by
          unfold nextTok
          rw [skipWs_not_ws (by decide)]
        rw [hcomma]
        simp only [Option.some_bind]
        rw [if_pos trivial]
        rw [parseInnerMembers_space, ih (by simp)
          (fun x hx => hplain x (List.mem_cons_of_mem _ hx)) f
          (by simp only [List.length_cons] at hfuel ⊢; omega) rest]
        simp [string_mk_toList]

lemma parseInnerObj_space (f : Nat) (x : List Char) :
    parseInnerObj f (' ' :: x) = parseInnerObj f x := by
  simp only [parseInnerObj, nextTok_space]

/-- The serialized members of a nonempty object form a text starting
with a double quote. -/
lemma joinComma_pieces_cons (kv : String × String) (t : List (String × String)) :
    ∃ Z, ∀ r : List Char,
      joinComma ((kv :: t).map fun p => jsonStr p.1 ++ ':' :: ' ' :: jsonStr p.2) ++ r
        = dq :: (Z ++ r) := by
  cases t with
  | nil =>
    refine ⟨kv.1.toList ++ dq :: ':' :: ' ' :: jsonStr kv.2, fun r => ?_⟩
    simp [joinComma, jsonStr, List.cons_append, List.append_assoc]
  | cons y t2 =>
    refine ⟨kv.1.toList ++ dq :: ':' :: ' ' :: (jsonStr kv.2 ++ ',' :: ' ' ::
      joinComma ((y :: t2).map fun p => jsonStr p.1 ++ ':' :: ' ' :: jsonStr p.2)),
      fun r => ?_⟩
    simp [joinComma, jsonStr, List.cons_append, List.append_assoc]

lemma parseInnerObj_rt :
    ∀ (d : List (String × String)),
    (∀ kv ∈ d, plainStr kv.1 = true ∧ plainStr kv.2 = true) →
    ∀ (fuel : Nat), d.length ≤ fuel → ∀ (rest : List Char),
    parseInnerObj fuel (jsonInner d ++ rest) = some (d, rest) := by
  intro d hplain fuel hfuel rest
  cases d with
  | nil =>
    have hin : jsonInner [] ++ rest = lbrace :: (rbrace :: rest) := by
      simp [jsonInner, joinComma]
    rw [hin]
    simp only [parseInnerObj]
    rw [nextTok_lbrace]
    simp only [Option.some_bind]
    rw [if_pos trivial, nextTok_rbrace]
    simp only [Option.some_bind]
    rw [if_pos trivial]
  | cons kv t =>
    obtain ⟨Z, hZ⟩ := joinComma_pieces_cons kv t
    have hZ1 := hZ (rbrace :: rest)
    have hin : jsonInner (kv :: t) ++ rest = lbrace :: (dq :: (Z ++ rbrace :: rest)) := by
      simp only [jsonInner, List.cons_append, List.append_assoc]
      rw [← hZ1]
      simp
    rw [hin]
    simp only [parseInnerObj]
    rw [nextTok_lbrace]
    simp only [Option.some_bind]
    rw [if_pos trivial, nextTok_dq]
    simp only [Option.some_bind]
    rw [← hZ1]
    exact parseInnerMembers_rt (kv :: t) (by simp) hplain fuel hfuel rest


lemma parseTopMembers_space (f : Nat) (x : List Char) :
    parseTopMembers f (' ' :: x) = parseTopMembers f x := by
  cases f with
  | zero => rfl
  | succ f => simp only [parseTopMembers, skipWs_space]

lemma parseTopMembers_rt :
    ∀ (t : List (String × List (String × String))), t ≠ [] →
    (∀ kv ∈ t, plainStr kv.1 = true
      ∧ ∀ ab ∈ kv.2, plainStr ab.1 = true ∧ plainStr ab.2 = true) →
    ∀ (fuel : Nat), t.length ≤ fuel →
    (∀ kv ∈ t, kv.2.length + t.length ≤ fuel) →
    ∀ (rest : List Char),
    parseTopMembers fuel
      (joinComma (t.map fun kv => jsonStr kv.1 ++ ':' :: ' ' :: jsonInner kv.2)
        ++ rbrace :: rest) = some (t, rest) := by
  intro t
  induction t with
  | nil => intro h; exact absurd rfl h
  | cons kv t2 ih =>
    intro _ hplain fuel hfuel hfuel2 rest
    obtain ⟨k, v⟩ := kv
    obtain ⟨hk, hv⟩ := hplain (k, v) (List.mem_cons_self _ _)
    cases fuel with
    | zero => simp at hfuel
    | succ f =>
      have hvlen : v.length ≤ f := by
        have := hfuel2 (k, v) (List.mem_cons_self _ _)
        simp only [List.length_cons] at this
        omega
      cases t2 with
      | nil =>
        have hin : joinComma
              (((k, v) :: ([] : List (String × List (String × String)))).map fun kv =>
                jsonStr kv.1 ++ ':' :: ' ' :: jsonInner kv.2) ++ rbrace :: rest
            = jsonStr k ++ (':' :: ' ' :: (jsonInner v ++ (rbrace :: rest))) := by
          simp [joinComma, List.append_assoc]
        rw [hin]
        simp only [parseTopMembers]
        rw [parseString_pref k hk]
        simp only [Option.some_bind]
        rw [expectChar_colon]
        simp only [Option.some_bind]
        rw [parseInnerObj_space, parseInnerObj_rt v hv f hvlen]
        simp only [Option.some_bind]
        rw [nextTok_rbrace]
        simp only [Option.some_bind]
        rw [if_neg (show ¬(rbrace = ',') from by decide)]
        simp [string_mk_toList]
      | cons y t3 =>
        have hin : joinComma
              (((k, v) :: y :: t3).map fun kv =>
                jsonStr kv.1 ++ ':' :: ' ' :: jsonInner kv.2) ++ rbrace :: rest
            = jsonStr k ++ (':' :: ' ' :: (jsonInner v ++ (',' :: ' ' ::
                (joinComma ((y :: t3).map fun kv =>
                  jsonStr kv.1 ++ ':' :: ' ' :: jsonInner kv.2) ++ rbrace :: rest)))) := by
          simp [joinComma, List.append_assoc]
        rw [hin]
        simp only [parseTopMembers]
        rw [parseString_pref k hk]
        simp only [Option.some_bind]
        rw [expectChar_colon]
        simp only [Option.some_bind]
        rw [parseInnerObj_space, parseInnerObj_rt v hv f hvlen]
        simp only [Option.some_bind]
        have hcomma : nextTok (',' :: ' ' ::
            (joinComma ((y :: t3).map fun kv =>
              jsonStr kv.1 ++ ':' :: ' ' :: jsonInner kv.2) ++ rbrace :: rest))
            = some (',', ' ' ::
              (joinComma ((y :: t3).map fun kv =>
                jsonStr kv.1 ++ ':' :: ' ' :: jsonInner kv.2) ++ rbrace :: rest)) := by
          unfold nextTok
          rw [skipWs_not_ws (by decide)]
        rw [hcomma]
        simp only [Option.some_bind]
        rw [if_pos trivial]
        rw [parseTopMembers_space, ih (by simp)
          (fun x hx => hplain x (List.mem_cons_of_mem _ hx)) f
          (by simp only [List.length_cons] at hfuel ⊢; omega)
          (fun x hx => by
            have := hfuel2 x (List.mem_cons_of_mem _ hx)
            simp only [List.length_cons] at this ⊢
            omega) rest]
        simp [string_mk_toList]

/-- The serialized members of a nonempty top-level object start with a
double quote. -/
lemma joinComma_top_pieces_cons (kv : String × List (String × String))
    (t : List (String × List (String × String))) :
    ∃ Z, ∀ r : List Char,
      joinComma ((kv :: t).map fun p => jsonStr p.1 ++ ':' :: ' ' :: jsonInner p.2) ++ r
        = dq :: (Z ++ r) := by
  cases t with
  | nil =>
    refine ⟨kv.1.toList ++ dq :: ':' :: ' ' :: jsonInner kv.2, fun r => ?_⟩
    simp [joinComma, jsonStr, List.cons_append, List.append_assoc]
  | cons y t2 =>
    refine ⟨kv.1.toList ++ dq :: ':' :: ' ' :: (jsonInner kv.2 ++ ',' :: ' ' ::
      joinComma ((y :: t2).map fun p => jsonStr p.1 ++ ':' :: ' ' :: jsonInner p.2)),
      fun r => ?_⟩
    simp [joinComma, jsonStr, List.cons_append, List.append_assoc]

lemma joinComma_length_ge :
    ∀ (xs : List (List Char)), (∀ y ∈ xs, 1 ≤ y.length) →
    xs.length ≤ (joinComma xs).length := by
  intro xs
  induction xs with
  | nil => intro; simp [joinComma]
  | cons x t ih =>
    intro h
    cases t with
    | nil =>
      have := h x (List.mem_cons_self _ _)
      simp only [joinComma, List.length_cons, List.length_nil]
      omega
    | cons y t2 =>
      have hx := h x (List.mem_cons_self _ _)
      have hrec := ih fun z hz => h z (List.mem_cons_of_mem _ hz)
      simp only [joinComma, List.length_cons, List.length_append] at hrec ⊢
      omega

lemma joinComma_length_ge_of_mem :
    ∀ (xs : List (List Char)), (∀ y ∈ xs, 1 ≤ y.length) →
    ∀ x ∈ xs, x.length + xs.length ≤ (joinComma xs).length + 1 := by
  intro xs
  induction xs with
  | nil => intro _ x hx; cases hx
  | cons a t ih =>
    intro h x hx
    cases t with
    | nil =>
      rcases List.mem_cons.mp hx with rfl | hx2
      · simp [joinComma]
      · cases hx2
    | cons b t2 =>
      have hrec := ih (fun z hz => h z (List.mem_cons_of_mem _ hz))
      have ha := h a (List.mem_cons_self _ _)
      rcases List.mem_cons.mp hx with rfl | hx2
      · have hb := hrec b (List.mem_cons_self _ _)
        have hb1 := h b (List.mem_cons_of_mem _ (List.mem_cons_self _ _))
        simp only [joinComma, List.length_cons, List.length_append] at hb ⊢
        omega
      · have hx3 := hrec x hx2
        simp only [joinComma, List.length_cons, List.length_append] at hx3 ⊢
        omega

lemma length_jsonStr (s : String) : (jsonStr s).length = s.length + 2 := by
  have h : s.toList.length = s.length := rfl
  simp only [jsonStr, List.length_cons, List.length_append, List.length_nil]
  omega

lemma length_jsonInner_ge (d : List (String × String)) :
    d.length ≤ (jsonInner d).length := by
  have h := joinComma_length_ge
    (d.map fun kv => jsonStr kv.1 ++ ':' :: ' ' :: jsonStr kv.2)
    (by
      intro y hy
      obtain ⟨kv, -, rfl⟩ := List.mem_map.mp hy
      simp only [List.length_append, List.length_cons, length_jsonStr]
      omega)
  simp only [jsonInner, List.length_cons, List.length_append, List.length_map] at h ⊢
  omega

/-- Round trip: the parser recovers the object serialized by
`jsonTop`. -/
lemma length_jsonTop (t : List (String × List (String × String))) :
    (jsonTop t).length =
      (joinComma (t.map fun kv =>
        jsonStr kv.1 ++ ':' :: ' ' :: jsonInner kv.2)).length + 2 := by
  simp only [jsonTop, List.length_cons, List.length_append, List.length_nil]

lemma skipWs_nil : skipWs [] = [] := rfl

lemma parse_json_rt (t : List (String × List (String × String)))
    (hplain : ∀ kv ∈ t, plainStr kv.1 = true
      ∧ ∀ ab ∈ kv.2, plainStr ab.1 = true ∧ plainStr ab.2 = true) :
    parse_json (jsonTop t) = some t := by
  cases t with
  | nil => rfl
  | cons kv t2 =>
    obtain ⟨Z, hZ⟩ := joinComma_top_pieces_cons kv t2
    have hZ1 := hZ (rbrace :: ([] : List Char))
    have hin : jsonTop (kv :: t2) = lbrace :: (dq :: (Z ++ rbrace :: [])) := by
      simp only [jsonTop, List.cons_append, List.append_assoc]
      rw [← hZ1]
    have hpieces1 : ∀ y ∈ (kv :: t2).map fun p =>
        jsonStr p.1 ++ ':' :: ' ' :: jsonInner p.2, 1 ≤ y.length := by
      intro y hy
      obtain ⟨p, -, rfl⟩ := List.mem_map.mp hy
      simp only [List.length_append, List.length_cons, length_jsonStr]
      omega
    have hlen1 : (kv :: t2).length ≤ (jsonTop (kv :: t2)).length + 1 := by
      have h := joinComma_length_ge _ hpieces1
      simp only [List.length_map] at h
      rw [length_jsonTop]
      omega
    have hlen2 : ∀ p ∈ kv :: t2,
        p.2.length + (kv :: t2).length ≤ (jsonTop (kv :: t2)).length + 1 := by
      intro p hp
      have h := joinComma_length_ge_of_mem _ hpieces1
        (jsonStr p.1 ++ ':' :: ' ' :: jsonInner p.2)
        (List.mem_map_of_mem _ hp)
      have hinner := length_jsonInner_ge p.2
      simp only [List.length_append, List.length_cons, List.length_map,
        length_jsonStr] at h
      rw [length_jsonTop]
      simp only [List.length_cons]
      omega
    rw [hin]
    simp only [parse_json]
    rw [nextTok_lbrace]
    simp only [Option.some_bind]
    rw [if_pos trivial, nextTok_dq]
    simp only [Option.some_bind]
    rw [if_neg (show ¬(dq = rbrace) from by decide)]
    generalize hn : (lbrace :: dq :: (Z ++ ([rbrace] : List Char))).length + 1 = n
    rw [← hZ1]
    have hfueln : (jsonTop (kv :: t2)).length + 1 = n := by
      rw [← hn, hin]
    rw [parseTopMembers_rt (kv :: t2) (by simp) hplain n
      (by rw [← hfueln]; exact hlen1)
      (fun p hp => by rw [← hfueln]; exact hlen2 p hp) []]
    simp [skipWs_nil]

lemma replaceChar_append (p : Char) (rep : List Char) (a b : List Char) :
    replaceChar p rep (a ++ b) = replaceChar p rep a ++ replaceChar p rep b := by
  induction a with
  | nil => rfl
  | cons c t ih =>
    by_cases h : c = p <;> simp [replaceChar, h, ih, List.append_assoc]

lemma replaceChar_of_ne (p : Char) (rep : List Char) :
    ∀ l : List Char, (∀ c ∈ l, c ≠ p) → replaceChar p rep l = l := by
  intro l
  induction l with
  | nil => intro; rfl
  | cons c t ih =>
    intro h
    simp only [replaceChar, if_neg (h c (List.mem_cons_self c t))]
    rw [ih fun x hx => h x (List.mem_cons_of_mem c hx)]

lemma mem_replaceChar {p : Char} {rep : List Char} :
    ∀ {l : List Char} {c : Char}, c ∈ replaceChar p rep l → c ∈ l ∨ c ∈ rep := by
  intro l
  induction l with
  | nil => intro c hc; cases hc
  | cons a t ih =>
    intro c hc
    by_cases ha : a = p
    · rw [replaceChar, if_pos ha] at hc
      rcases List.mem_append.mp hc with h1 | h1
      · exact Or.inr h1
      · rcases ih h1 with h2 | h2
        · exact Or.inl (List.mem_cons_of_mem a h2)
        · exact Or.inr h2
    · rw [replaceChar, if_neg ha] at hc
      rcases List.mem_cons.mp hc with rfl | h1
      · exact Or.inl (List.mem_cons_self c t)
      · rcases ih h1 with h2 | h2
        · exact Or.inl (List.mem_cons_of_mem a h2)
        · exact Or.inr h2

lemma flatten_map_eq_self (g : Char → List Char) :
    ∀ l : List Char, (∀ c ∈ l, g c = [c]) → (l.map g).flatten = l := by
  intro l
  induction l with
  | nil => intro; rfl
  | cons c t ih =>
    intro h
    simp only [List.map_cons, List.flatten_cons, h c (List.mem_cons_self c t)]
    rw [ih fun x hx => h x (List.mem_cons_of_mem c hx)]
    rfl

lemma contains_eq_false_of_plain {cs : List Char} {x : Char}
    (h : ∀ c ∈ cs, plainChar c = true) (hx : plainChar x = false) :
    cs.contains x = false := by
  rw [Bool.eq_false_iff]
  intro hc
  have hmem : x ∈ cs := by
    simpa using hc
  rw [h x hmem] at hx
  exact Bool.noConfusion hx

lemma pyRepr_plain {s : String} (h : plainStr s = true) :
    pyRepr s = sq :: (s.toList ++ [sq]) := by
  have hchars : ∀ c ∈ s.toList, plainChar c = true := fun c hc =>
    List.all_eq_true.mp h c hc
  have hq : pyReprQuote s.toList = sq := by
    unfold pyReprQuote
    rw [if_neg]
    rintro ⟨hc, -⟩
    rw [contains_eq_false_of_plain hchars (by decide)] at hc
    exact Bool.false_ne_true hc
  have hbody : ∀ c ∈ s.toList, pyReprChar sq c = [c] := by
    intro c hc
    obtain ⟨hsq, -, hbsl, -, -⟩ := plainChar_spec (hchars c hc)
    unfold pyReprChar
    rw [if_neg hbsl, if_neg hsq]
  simp only [pyRepr]
  rw [hq, flatten_map_eq_self _ s.toList hbody]
  simp

lemma plain_replaceChar {F l : List Char}
    (hF : ∀ c ∈ F, plainChar c = true) (hl : ∀ c ∈ l, plainChar c = true) :
    ∀ c ∈ replaceChar '%' F l, plainChar c = true := fun c hc =>
  (mem_replaceChar hc).elim (hl c) (hF c)

/-- Per-string effect of the two `replace` passes on a `repr` piece:
the `%` pass substitutes inside the quotes, the quote pass turns the
single quotes into double quotes and leaves the (quote-free) body
alone. -/
lemma replTwo_str {folder s : String}
    (hf : plainStr folder = true) (hs : plainStr s = true) :
    replaceChar sq [dq] (replaceChar '%' folder.toList (pyRepr s))
      = jsonStr (substStr folder s) := by
  have hfc : ∀ c ∈ folder.toList, plainChar c = true := fun c hc =>
    List.all_eq_true.mp hf c hc
  have hsc : ∀ c ∈ s.toList, plainChar c = true := fun c hc =>
    List.all_eq_true.mp hs c hc
  have hX : ∀ c ∈ replaceChar '%' folder.toList s.toList, c ≠ sq := fun c hc =>
    (plainChar_spec (plain_replaceChar hfc hsc c hc)).1
  have hInner : replaceChar '%' folder.toList (sq :: (s.toList ++ [sq]))
      = [sq] ++ (replaceChar '%' folder.toList s.toList ++ [sq]) := by
    have h0 : (sq :: (s.toList ++ [sq]) : List Char) = [sq] ++ (s.toList ++ [sq]) := rfl
    rw [h0, replaceChar_append, replaceChar_append,
      replaceChar_of_ne '%' folder.toList [sq] (by decide)]
  have hOuter : replaceChar sq [dq]
        ([sq] ++ (replaceChar '%' folder.toList s.toList ++ [sq]))
      = [dq] ++ (replaceChar '%' folder.toList s.toList ++ [dq]) := by
    rw [replaceChar_append, replaceChar_append,
      replaceChar_of_ne sq [dq] _ hX]
    simp [replaceChar]
  rw [pyRepr_plain hs, hInner, hOuter]
  simp [jsonStr, substStr, string_toList_mk]

/-- The two replace passes fix a separator character. -/
lemma replTwo_sep {F : List Char} {c : Char} (h1 : c ≠ '%') (h2 : c ≠ sq) :
    replaceChar sq [dq] (replaceChar '%' F [c]) = [c] := by
  rw [replaceChar_of_ne '%' F [c] (by intro x hx; rw [List.mem_singleton.mp hx]; exact h1)]
  rw [replaceChar_of_ne sq [dq] [c] (by intro x hx; rw [List.mem_singleton.mp hx]; exact h2)]

lemma replTwo_joinComma (F : List Char) :
    ∀ xs : List (List Char),
    replaceChar sq [dq] (replaceChar '%' F (joinComma xs))
      = joinComma (xs.map fun x => replaceChar sq [dq] (replaceChar '%' F x)) := by
  intro xs
  induction xs with
  | nil => rfl
  | cons x t ih =>
    cases t with
    | nil => simp [joinComma]
    | cons y t2 =>
      show replaceChar sq [dq] (replaceChar '%' F (x ++ ',' :: ' ' :: joinComma (y :: t2)))
        = _
      have hsplit : x ++ ',' :: ' ' :: joinComma (y :: t2)
          = x ++ [','] ++ [' '] ++ joinComma (y :: t2) := by simp
      rw [hsplit, replaceChar_append, replaceChar_append, replaceChar_append,
        replaceChar_append, replaceChar_append, replaceChar_append]
      rw [replTwo_sep (by decide) (by decide), replTwo_sep (by decide) (by decide), ih]
      simp [joinComma]

lemma replTwo_append (F a b : List Char) :
    replaceChar sq [dq] (replaceChar '%' F (a ++ b))
      = replaceChar sq [dq] (replaceChar '%' F a)
        ++ replaceChar sq [dq] (replaceChar '%' F b) := by
  rw [replaceChar_append, replaceChar_append]

lemma map_congr_mem {α β : Type} (f g : α → β) :
    ∀ l : List α, (∀ x ∈ l, f x = g x) → l.map f = l.map g := by
  intro l
  induction l with
  | nil => intro; rfl
  | cons x t ih =>
    intro h
    simp only [List.map_cons, h x (List.mem_cons_self x t)]
    rw [ih fun y hy => h y (List.mem_cons_of_mem x hy)]

lemma replTwo_inner_pair {folder a b : String}
    (hf : plainStr folder = true) (ha : plainStr a = true) (hb : plainStr b = true) :
    replaceChar sq [dq] (replaceChar '%' folder.toList
        (pyRepr a ++ ':' :: ' ' :: pyRepr b))
      = jsonStr (substStr folder a) ++ ':' :: ' ' :: jsonStr (substStr folder b) := by
  have hsplit : pyRepr a ++ ':' :: ' ' :: pyRepr b
      = pyRepr a ++ ([':'] ++ ([' '] ++ pyRepr b)) := by simp
  rw [hsplit, replTwo_append, replTwo_append, replTwo_append]
  rw [replTwo_str hf ha, replTwo_str hf hb,
    replTwo_sep (by decide) (by decide), replTwo_sep (by decide) (by decide)]
  simp

lemma replTwo_pyStrInner {folder : String} (hf : plainStr folder = true)
    (d : List (String × String))
    (hd : ∀ ab ∈ d, plainStr ab.1 = true ∧ plainStr ab.2 = true) :
    replaceChar sq [dq] (replaceChar '%' folder.toList (pyStrInner d))
      = jsonInner (d.map fun ab => (substStr folder ab.1, substStr folder ab.2)) := by
  have hsplit : pyStrInner d
      = [lbrace] ++ (joinComma (d.map fun kv =>
          pyRepr kv.1 ++ ':' :: ' ' :: pyRepr kv.2) ++ [rbrace]) := rfl
  rw [hsplit, replTwo_append, replTwo_append,
    replTwo_sep (by decide) (by decide), replTwo_sep (by decide) (by decide),
    replTwo_joinComma, List.map_map]
  simp only [Function.comp_def]
  rw [map_congr_mem _ (fun ab => jsonStr (substStr folder ab.1)
      ++ ':' :: ' ' :: jsonStr (substStr folder ab.2)) d
    (fun ab hab => replTwo_inner_pair hf (hd ab hab).1 (hd ab hab).2)]
  simp [jsonInner, List.map_map, Function.comp_def]

lemma replTwo_top_pair {folder k : String} {v : List (String × String)}
    (hf : plainStr folder = true) (hk : plainStr k = true)
    (hv : ∀ ab ∈ v, plainStr ab.1 = true ∧ plainStr ab.2 = true) :
    replaceChar sq [dq] (replaceChar '%' folder.toList
        (pyRepr k ++ ':' :: ' ' :: pyStrInner v))
      = jsonStr (substStr folder k) ++ ':' :: ' ' ::
          jsonInner (v.map fun ab => (substStr folder ab.1, substStr folder ab.2)) := by
  have hsplit : pyRepr k ++ ':' :: ' ' :: pyStrInner v
      = pyRepr k ++ ([':'] ++ ([' '] ++ pyStrInner v)) := by simp
  rw [hsplit, replTwo_append, replTwo_append, replTwo_append]
  rw [replTwo_str hf hk, replTwo_pyStrInner hf v hv,
    replTwo_sep (by decide) (by decide), replTwo_sep (by decide) (by decide)]
  simp

/-- The whole pipeline `str(template).replace('%', folder).replace("'",
'"')` produces exactly the canonical JSON text of the substituted
template, when every string involved is plain. -/
lemma replTwo_pyStrTop {folder : String} (hf : plainStr folder = true)
    (t : List (String × List (String × String)))
    (ht : ∀ kv ∈ t, plainStr kv.1 = true
      ∧ ∀ ab ∈ kv.2, plainStr ab.1 = true ∧ plainStr ab.2 = true) :
    replaceChar sq [dq] (replaceChar '%' folder.toList (pyStrTop t))
      = jsonTop (substTemplate t folder) := by
  have hsplit : pyStrTop t
      = [lbrace] ++ (joinComma (t.map fun kv =>
          pyRepr kv.1 ++ ':' :: ' ' :: pyStrInner kv.2) ++ [rbrace]) := rfl
  rw [hsplit, replTwo_append, replTwo_append,
    replTwo_sep (by decide) (by decide), replTwo_sep (by decide) (by decide),
    replTwo_joinComma, List.map_map]
  simp only [Function.comp_def]
  rw [map_congr_mem _ (fun kv => jsonStr (substStr folder kv.1)
      ++ ':' :: ' ' :: jsonInner (kv.2.map fun ab =>
        (substStr folder ab.1, substStr folder ab.2))) t
    (fun kv hkv => replTwo_top_pair hf (ht kv hkv).1 (ht kv hkv).2)]
  simp [jsonTop, substTemplate, List.map_map, Function.comp_def]

lemma plainStr_substStr {folder s : String}
    (hf : plainStr folder = true) (hs : plainStr s = true) :
    plainStr (substStr folder s) = true := by
  have hfc : ∀ c ∈ folder.toList, plainChar c = true := fun c hc =>
    List.all_eq_true.mp hf c hc
  have hsc : ∀ c ∈ s.toList, plainChar c = true := fun c hc =>
    List.all_eq_true.mp hs c hc
  refine List.all_eq_true.mpr fun c hc => ?_
  rw [substStr, string_toList_mk] at hc
  exact plain_replaceChar hfc hsc c hc

lemma assocSet_of_not_mem {α : Type} (k : String) (v : α) :
    ∀ l : List (String × α), (∀ kv ∈ l, kv.1 ≠ k) →
    assocSet l k v = l ++ [(k, v)] := by
  intro l
  induction l with
  | nil => intro; rfl
  | cons kv t ih =>
    intro h
    have hne : ¬((kv.1 == k) = true) := by
      simpa using h kv (List.mem_cons_self kv t)
    simp only [assocSet, if_neg hne]
    rw [ih fun x hx => h x (List.mem_cons_of_mem kv hx)]
    rfl

lemma pyDict_go {α : Type} :
    ∀ (l acc : List (String × α)), (l.map Prod.fst).Nodup →
    (∀ kv ∈ l, ∀ kv2 ∈ acc, kv2.1 ≠ kv.1) →
    List.foldl (fun acc kv => assocSet acc kv.1 kv.2) acc l = acc ++ l := by
  intro l
  induction l with
  | nil => intro acc _ _; simp
  | cons kv t ih =>
    intro acc hnodup hdisj
    simp only [List.foldl_cons]
    rw [assocSet_of_not_mem kv.1 kv.2 acc
      (fun kv2 h2 => hdisj kv (List.mem_cons_self kv t) kv2 h2)]
    have hnodup2 : (kv.1 :: t.map Prod.fst).Nodup := by simpa using hnodup
    obtain ⟨hnotmem, hnodup3⟩ := List.nodup_cons.mp hnodup2
    rw [ih (acc ++ [kv]) hnodup3 ?_]
    · simp
    · intro x hx kv2 hkv2
      rcases List.mem_append.mp hkv2 with h2 | h2
      · exact hdisj x (List.mem_cons_of_mem kv hx) kv2 h2
      · rw [List.mem_singleton.mp h2]
        intro heq
        exact hnotmem (heq ▸ List.mem_map_of_mem Prod.fst hx)

lemma pyDict_eq_self {α : Type} (l : List (String × α))
    (h : (l.map Prod.fst).Nodup) : pyDict l = l := by
  unfold pyDict
  rw [pyDict_go l [] h (by simp)]
  rfl

/-- Counterexample to C2: a template whose value contains a double-quote
character.  `repr` keeps the quote verbatim inside single quotes, the
quote-swap then produces `"a"b"`, and `json.loads` fails — so
`dict_expected` raises a `JSONDecodeError` instead of producing the
substituted template. -/
theorem dict_expected_counterexample :
    dict_expected
      [("sync_data", [("filename", String.mk ['a', Char.ofNat 34, 'b'])])]
      "366122" = none := by
  decide

/-- C2 (amended): for every template and session-folder string made of
plain printable-ASCII characters free of quote characters and
backslashes, and whose keys stay duplicate-free after substitution,
`dict_expected` parses successfully and is structurally identical to the
template with every `%` occurrence replaced by the folder string.  (The
original claim's allowance for quote characters in keys or values is
exactly what fails, per the counterexample.) -/
theorem dict_expected_subst_roundtrip :
    ∀ (template : List (String × List (String × String))) (folder : String),
      plainStr folder = true →
      (∀ kv ∈ template, plainStr kv.1 = true
        ∧ ∀ ab ∈ kv.2, plainStr ab.1 = true ∧ plainStr ab.2 = true) →
      ((substTemplate template folder).map Prod.fst).Nodup →
      (∀ kv ∈ substTemplate template folder, (kv.2.map Prod.fst).Nodup) →
      dict_expected template folder = some (substTemplate template folder) := by
  intro template folder hf ht hnd1 hnd2
  unfold dict_expected
  rw [replTwo_pyStrTop hf template ht]
  have hplainsub : ∀ kv ∈ substTemplate template folder, plainStr kv.1 = true
      ∧ ∀ ab ∈ kv.2, plainStr ab.1 = true ∧ plainStr ab.2 = true := by
    intro kv hkv
    obtain ⟨kv0, hkv0, rfl⟩ := List.mem_map.mp hkv
    obtain ⟨hk0, hv0⟩ := ht kv0 hkv0
    refine ⟨plainStr_substStr hf hk0, ?_⟩
    intro ab hab
    obtain ⟨ab0, hab0, rfl⟩ := List.mem_map.mp hab
    obtain ⟨ha0, hb0⟩ := hv0 ab0 hab0
    exact ⟨plainStr_substStr hf ha0, plainStr_substStr hf hb0⟩
  rw [parse_json_rt (substTemplate template folder) hplainsub]
  show some (pyDict ((substTemplate template folder).map fun kv =>
      (kv.1, pyDict kv.2))) = some (substTemplate template folder)
  rw [map_congr_mem (fun kv => (kv.1, pyDict kv.2)) id
    (substTemplate template folder)
    (fun kv hkv => by simp only [id]; rw [pyDict_eq_self kv.2 (hnd2 kv hkv)])]
  rw [List.map_id]
  rw [pyDict_eq_self _ hnd1]

/-- Witness for C2 (amended): the spec's own example — a `sync_data`
entry with pattern `%_sync.h5` and a concrete session folder string —
expands to the substituted manifest entry. -/
theorem dict_expected_subst_roundtrip_witness :
    dict_expected [("sync_data", [("filename", "%_sync.h5")])]
      "1234_567890_20230101"
      = some [("sync_data", [("filename", "1234_567890_20230101_sync.h5")])] := by
  have h := dict_expected_subst_roundtrip
    [("sync_data", [("filename", "%_sync.h5")])] "1234_567890_20230101"
    (by decide) (by decide) (by decide) (by decide)
  rw [h]
  rfl

end NpSession
